import Mathlib

/-!
# Verification development for the `extract` package

Shallow embedding of `src/extract/extract.go`:

* the embedding cache (`CacheEmbedding`, and the `ZRange` read of
  `GetCachedEmbeddings`) over a model of the Redis sorted set it is stored in;
* `FindSimilarEmbedding` / `cosineSimilarity` over a model of IEEE 754 binary
  floating point (Go `float32` / `float64`);
* the TED talk catalog resolver (`Similarity`, `SearchTEDTalk`, `scrapeTEDTalk`);
* the retrying fetcher `fetchURLContent` and the text normaliser `cleanText`;
* the byte-to-`float32` conversion loop of `GetCachedEmbeddings`;
* the context assembly loop of `src/main.go`.
-/

set_option maxRecDepth 8192

namespace Extract

/-! ## The embedding cache -/

/-- Go constant `CacheSize = 5`. -/
def CacheSize : Int := 5

/-- Go `redis.Z`: one member of a sorted set with its score.  The score is the
insertion timestamp (`time.Now().UnixNano()`), the member the base64 text of the
embedding. -/
structure Z where
  Score : Int
  Member : String
deriving DecidableEq, Repr

/-- Sorted sets are ordered by score, then by member (Redis breaks score ties
lexicographically). -/
def Z.le (a b : Z) : Bool :=
  decide (a.Score < b.Score) || (decide (a.Score = b.Score) && decide (a.Member ≤ b.Member))

/-- A Redis sorted set, as the list of its entries in rank order (rank 0 first). -/
abbrev SortedSet := List Z

/-- Place an entry at its rank. -/
def SortedSet.place (z : Z) : SortedSet → SortedSet
  | [] => [z]
  | y :: ys => if z.le y then z :: y :: ys else y :: SortedSet.place z ys

/-- Redis `ZADD key score member`: a member already present is re-scored (members
are unique), otherwise the member is added; either way it ends at its rank. -/
def ZAdd (key : SortedSet) (z : Z) : SortedSet :=
  SortedSet.place z (key.filter (fun y => y.Member != z.Member))

/-- Redis `ZREMRANGEBYRANK key start stop`: negative indices count from the end,
the range is inclusive, and an empty range removes nothing. -/
def ZRemRangeByRank (key : SortedSet) (start stop : Int) : SortedSet :=
  let llen : Int := key.length
  let start := if start < 0 then llen + start else start
  let stop := if stop < 0 then llen + stop else stop
  let start := if start < 0 then 0 else start
  if start > stop ∨ start ≥ llen then key
  else
    let stop := if stop ≥ llen then llen - 1 else stop
    key.take start.toNat ++ key.drop (stop.toNat + 1)

/-- Redis `ZRANGE key start stop`: the members with rank in the inclusive range,
in rank order. -/
def ZRange (key : SortedSet) (start stop : Int) : List String :=
  let llen : Int := key.length
  let start := if start < 0 then llen + start else start
  let stop := if stop < 0 then llen + stop else stop
  let start := if start < 0 then 0 else start
  if start > stop ∨ start ≥ llen then []
  else
    let stop := if stop ≥ llen then llen - 1 else stop
    ((key.take (stop.toNat + 1)).drop start.toNat).map Z.Member

/-- Go `CacheEmbedding`, on the state of the sorted set stored under
`EmbeddingCacheKey`: `ZAdd` of the member scored with the current time `now`,
then `ZRemRangeByRank 0 (-CacheSize-1)`.  The two backend calls are taken to
succeed. -/
def CacheEmbedding (cache : SortedSet) (now : Int) (member : String) : SortedSet :=
  ZRemRangeByRank (ZAdd cache ⟨now, member⟩) 0 (-CacheSize - 1)

/-- A run of `CacheEmbedding` calls, each given as (timestamp, member). -/
def cacheAll (cache : SortedSet) (inserts : List (Int × String)) : SortedSet :=
  inserts.foldl (fun c i => CacheEmbedding c i.1 i.2) cache

/-! ## Floating point -/

/-- An IEEE 754 binary floating-point datum: not-a-number, a signed infinity, or
the finite value `(-1)^neg * m * 2^e`. -/
inductive FP where
  | nan
  | inf (neg : Bool)
  | fin (neg : Bool) (m : Nat) (e : Int)
deriving DecidableEq, Repr

/-- A binary interchange format: precision in bits and exponent range. -/
structure Fmt where
  prec : Nat
  emin : Int
  emax : Int

/-- IEEE 754 binary32, Go `float32`. -/
def binary32 : Fmt := ⟨24, -126, 127⟩
/-- IEEE 754 binary64, Go `float64`. -/
def binary64 : Fmt := ⟨53, -1022, 1023⟩

/-- Number of binary digits of a natural number, by halving. -/
def bitLenAux : Nat → Nat → Nat
  | 0, _ => 0
  | fuel + 1, n => if n = 0 then 0 else bitLenAux fuel (n / 2) + 1

/-- Number of binary digits of `n` (`0` for `0`). -/
def bitLen (n : Nat) : Nat := bitLenAux n n

/-- Multiply by `2^s` for `s ≥ 0`, leave unchanged for `s < 0`. -/
def shl (x : Nat) (s : Int) : Nat := x * 2 ^ s.toNat

/-- Round the exact value `(-1)^neg * (n / d) * 2^e` (with `d > 0`) to the format,
to nearest, ties to even, with gradual underflow and overflow to infinity. -/
def FP.round (f : Fmt) (neg : Bool) (n d : Nat) (e : Int) : FP :=
  if n = 0 then .fin neg 0 0
  else
    -- floor of log2 (n / d)
    let t : Int := (bitLen n : Int) - (bitLen d : Int)
    let k : Int := if shl d t ≤ shl n (-t) then t else t - 1
    -- exponent of the unit in the last place
    let q : Int := max (k + e - ((f.prec : Int) - 1)) (f.emin - ((f.prec : Int) - 1))
    let num := shl n (e - q)
    let den := shl d (q - e)
    let quo := num / den
    let rem := num % den
    let m := if den < 2 * rem ∨ (2 * rem = den ∧ quo % 2 = 1) then quo + 1 else quo
    let (m, q) := if m = 2 ^ f.prec then (2 ^ (f.prec - 1), q + 1) else (m, q)
    if m = 0 then .fin neg 0 0
    else if f.emax < q + ((f.prec : Int) - 1) then .inf neg
    else .fin neg m q

/-- The finite value as an integer multiple of `2^e0`, for `e0 ≤ e`. -/
def FP.scaled (neg : Bool) (m : Nat) (e e0 : Int) : Int :=
  let v : Int := (shl m (e - e0) : Nat)
  if neg then -v else v

/-- Go `x == y` on floats: NaN equals nothing, the two zeros are equal. -/
def FP.eq : FP → FP → Bool
  | .inf s, .inf t => s == t
  | .fin s m e, .fin t n g => FP.scaled s m e (min e g) == FP.scaled t n g (min e g)
  | _, _ => false

/-- Go `x < y` on floats (false when either side is NaN). -/
def FP.lt : FP → FP → Bool
  | .nan, _ => false
  | _, .nan => false
  | .inf s, .inf t => s && !t
  | .inf s, .fin _ _ _ => s
  | .fin _ _ _, .inf t => !t
  | .fin s m e, .fin t n g => decide (FP.scaled s m e (min e g) < FP.scaled t n g (min e g))

/-- Go `x > y` on floats. -/
def FP.gt (x y : FP) : Bool := FP.lt y x

/-- Go `x >= y` on floats. -/
def FP.ge (x y : FP) : Bool := FP.lt y x || FP.eq x y

/-- Go unary minus. -/
def FP.neg : FP → FP
  | .nan => .nan
  | .inf s => .inf (!s)
  | .fin s m e => .fin (!s) m e

/-- Go `x + y` in the given format. -/
def FP.add (f : Fmt) : FP → FP → FP
  | .nan, _ => .nan
  | _, .nan => .nan
  | .inf s, .inf t => if s = t then .inf s else .nan
  | .inf s, .fin _ _ _ => .inf s
  | .fin _ _ _, .inf t => .inf t
  | .fin s m e, .fin t n g =>
    let e0 := min e g
    let v := FP.scaled s m e e0 + FP.scaled t n g e0
    if v = 0 then .fin (s && t) 0 0
    else FP.round f (decide (v < 0)) v.natAbs 1 e0

/-- Go `x - y` in the given format. -/
def FP.sub (f : Fmt) (x y : FP) : FP := FP.add f x (FP.neg y)

/-- Go `x * y` in the given format. -/
def FP.mul (f : Fmt) : FP → FP → FP
  | .nan, _ => .nan
  | _, .nan => .nan
  | .inf s, .inf t => .inf (xor s t)
  | .inf s, .fin t n _ => if n = 0 then .nan else .inf (xor s t)
  | .fin s m _, .inf t => if m = 0 then .nan else .inf (xor s t)
  | .fin s m e, .fin t n g => FP.round f (xor s t) (m * n) 1 (e + g)

/-- Go `x / y` in the given format. -/
def FP.div (f : Fmt) : FP → FP → FP
  | .nan, _ => .nan
  | _, .nan => .nan
  | .inf _, .inf _ => .nan
  | .inf s, .fin t _ _ => .inf (xor s t)
  | .fin s _ _, .inf t => .fin (xor s t) 0 0
  | .fin s m e, .fin t n g =>
    if n = 0 then (if m = 0 then .nan else .inf (xor s t))
    else FP.round f (xor s t) m n (e - g)

/-- Integer square root by binary search on the bits of the result. -/
def isqrtLoop (n : Nat) : Nat → Nat → Nat
  | 0, r => r
  | i + 1, r => isqrtLoop n i (if (r + 2 ^ i) * (r + 2 ^ i) ≤ n then r + 2 ^ i else r)

/-- Floor of the square root. -/
def isqrt (n : Nat) : Nat := isqrtLoop n (bitLen n / 2 + 1) 0

/-- Go `math.Sqrt`, correctly rounded in the given format. -/
def FP.sqrt (f : Fmt) : FP → FP
  | .nan => .nan
  | .inf s => if s then .nan else .inf false
  | .fin s m e =>
    if m = 0 then .fin s 0 0
    else if s then .nan
    else
      -- scale the significand so that the root has more than `prec + 2` bits
      -- and the exponent is even
      let t0 : Int := 2 * (f.prec + 2)
      let t : Int := if (e - t0) % 2 = 0 then t0 else t0 + 1
      let m1 := shl m t
      let r := isqrt m1
      let sticky := if r * r = m1 then 0 else 1
      FP.round f false (2 * r + sticky) 2 ((e - t) / 2)

/-- Conversion of a float to the given format (Go `float32(x)`, `float64(x)`). -/
def FP.conv (f : Fmt) : FP → FP
  | .nan => .nan
  | .inf s => .inf s
  | .fin s m e => FP.round f s m 1 e

/-- Conversion of an integer to the given format (Go `float64(n)`). -/
def FP.ofInt (f : Fmt) (i : Int) : FP := FP.round f (decide (i < 0)) i.natAbs 1 0

/-- The `float32` constant `0`. -/
def FP.zero : FP := .fin false 0 0

/-! ## Similarity lookup in the cache -/

/-- The loop of `cosineSimilarity` over the components `a[i]`, `b[i]`, on the
accumulators `(dotProduct, normA, normB)`.  Each `float32` product and sum is
rounded on its own. -/
def cosineLoop : List FP → List FP → FP × FP × FP → FP × FP × FP
  | x :: a, y :: b, (dotProduct, normA, normB) =>
    cosineLoop a b
      (FP.add binary32 dotProduct (FP.mul binary32 x y),
       FP.add binary32 normA (FP.mul binary32 x x),
       FP.add binary32 normB (FP.mul binary32 y y))
  | _, _, acc => acc

/-- Go `float32(math.Sqrt(float64(x)))`. -/
def sqrt32 (x : FP) : FP := FP.conv binary32 (FP.sqrt binary64 (FP.conv binary64 x))

/-- Go `cosineSimilarity(a, b []float32) float32`. -/
def cosineSimilarity (a b : List FP) : FP :=
  if a.length ≠ b.length then FP.zero
  else
    match cosineLoop a b (FP.zero, FP.zero, FP.zero) with
    | (dotProduct, normA, normB) =>
      if FP.eq normA FP.zero || FP.eq normB FP.zero then FP.zero
      else FP.div binary32 dotProduct (FP.mul binary32 (sqrt32 normA) (sqrt32 normB))

/-- The scan of `FindSimilarEmbedding` over the cached embeddings; the Go result
`(nil, false)` is `(none, false)`. -/
def findSimilarLoop (query : List FP) (threshold : FP) :
    List (List FP) → Option (List FP) × Bool
  | [] => (none, false)
  | cached :: rest =>
    if FP.gt (cosineSimilarity query cached) threshold then (some cached, true)
    else findSimilarLoop query threshold rest

/-- Go `FindSimilarEmbedding(query, threshold)`, given what `GetCachedEmbeddings`
returned: an error, or the cached embeddings in their order in the sorted set. -/
def FindSimilarEmbedding (cachedEmbeddings : Except String (List (List FP)))
    (query : List FP) (threshold : FP) : Option (List FP) × Bool :=
  match cachedEmbeddings with
  | .error _ => (none, false)
  | .ok cached => findSimilarLoop query threshold cached

/-! ## Text cleaning -/

/-- Go `unicode.IsSpace`. -/
def unicodeIsSpace (c : Char) : Bool :=
  let n := c.toNat
  (9 ≤ n && n ≤ 13) || n == 0x20 || n == 0x85 || n == 0xA0 || n == 0x1680 ||
  (0x2000 ≤ n && n ≤ 0x200A) || n == 0x2028 || n == 0x2029 || n == 0x202F ||
  n == 0x205F || n == 0x3000

/-- Go `strings.TrimSpace`, on the runes of the string. -/
def TrimSpace (s : List Char) : List Char :=
  ((s.dropWhile unicodeIsSpace).reverse.dropWhile unicodeIsSpace).reverse

/-- Go `strings.ReplaceAll(text, "\n", " ")`, on the runes of the string. -/
def replaceNewlines (s : List Char) : List Char :=
  s.map (fun c => if c = '\n' then ' ' else c)

/-- Go `strings.Fields`: the maximal runs of non-space runes; `cur` is the run
being read, in reverse. -/
def Fields.go : List Char → List Char → List (List Char)
  | [], cur => if cur.isEmpty then [] else [cur.reverse]
  | c :: cs, cur =>
    if unicodeIsSpace c then
      (if cur.isEmpty then Fields.go cs [] else cur.reverse :: Fields.go cs [])
    else Fields.go cs (c :: cur)

/-- Go `strings.Fields`. -/
def Fields (s : List Char) : List (List Char) := Fields.go s []

/-- Go `strings.Join(elems, " ")`. -/
def joinSpace : List (List Char) → List Char
  | [] => []
  | [x] => x
  | x :: y :: rest => x ++ ' ' :: joinSpace (y :: rest)

/-- Go `cleanText`. -/
def cleanText (text : String) : String :=
  String.mk (joinSpace (Fields (replaceNewlines (TrimSpace text.toList))))

/-! ## The catalog resolver -/

/-- Options of `github.com/texttheater/golang-levenshtein`: the cost of each edit
operation and the test for two runes to match. -/
structure Options where
  InsCost : Nat
  DelCost : Nat
  SubCost : Nat
  Matches : Char → Char → Bool

/-- The library's `DefaultOptions`: insertion and deletion cost 1, substitution
costs 2 (a deletion and an insertion), runes match when identical. -/
def DefaultOptions : Options := ⟨1, 1, 2, fun a b => a == b⟩

/-- The inner loop of `DistanceForStrings` for the source rune `s`: the cells
`cur[j], cur[j+1], ...` of the current row, from the remaining target runes, the
cells `prev[j], ...` of the previous row, `left = cur[j-1]` and
`diag = prev[j-1]`. -/
def fillRow (op : Options) (s : Char) : List Char → List Nat → Nat → Nat → List Nat
  | t :: ts, up :: prev, left, diag =>
    let delCost := up + op.DelCost
    let matchSubCost := if op.Matches s t then diag else diag + op.SubCost
    let insCost := left + op.InsCost
    let c := min delCost (min matchSubCost insCost)
    c :: fillRow op s ts prev c up
  | _, _, _, _ => []

/-- Row `i` of the edit matrix from row `i - 1`: `cur[0] = i * DelCost`, then the
inner loop. -/
def nextRow (op : Options) (target : List Char) (i : Nat) (s : Char) (prev : List Nat) :
    List Nat :=
  match prev with
  | [] => []
  | p0 :: prevTail => (i * op.DelCost) :: fillRow op s target prevTail (i * op.DelCost) p0

/-- Row `0` of the edit matrix: `matrix[0][j] = j * InsCost`. -/
def firstRow (op : Options) (target : List Char) : List Nat :=
  (List.range (target.length + 1)).map (fun j => j * op.InsCost)

/-- The outer loop of `DistanceForStrings`, from row `i - 1` to the last row. -/
def fillRows (op : Options) (target : List Char) : List Char → Nat → List Nat → List Nat
  | [], _, prev => prev
  | s :: source, i, prev => fillRows op target source (i + 1) (nextRow op target i s prev)

/-- The library's `levenshtein.DistanceForStrings(source, target, op)`: the last
cell of the last row of the edit matrix. -/
def DistanceForStrings (source target : List Char) (op : Options) : Nat :=
  (fillRows op target source 1 (firstRow op target)).getLast?.getD 0

/-- Go `Similarity(a, b string) float64`.  `[]rune(a)` is the list of characters,
`len(a)` the number of bytes of the UTF-8 encoding. -/
def Similarity (a b : String) : FP :=
  let distance := DistanceForStrings a.toList b.toList DefaultOptions
  let maxLen := if b.utf8ByteSize > a.utf8ByteSize then b.utf8ByteSize else a.utf8ByteSize
  FP.mul binary64
    (FP.sub binary64 (FP.ofInt binary64 1)
      (FP.div binary64 (FP.ofInt binary64 distance) (FP.ofInt binary64 maxLen)))
    (FP.ofInt binary64 100)

/-- Go `TEDTalk`. -/
structure TEDTalk where
  Title : String
  Output : String
  Speaker : String
deriving DecidableEq, Repr

/-- The test `s >= 70` of `SearchTEDTalk` for one catalog entry. -/
def matchesTitle (title : String) (talk : TEDTalk) : Bool :=
  FP.ge (Similarity talk.Title title) (FP.ofInt binary64 70)

/-- Go `SearchTEDTalk(title, speaker, tedTalks)`. -/
def SearchTEDTalk (title speaker : String) : List TEDTalk → String
  | [] => "No matching TED Talk found."
  | talk :: rest =>
    if matchesTitle title talk then talk.Output else SearchTEDTalk title speaker rest

/-- What the code reads of a `goquery.Document`: for a selector, the value of an
attribute of the first matched element (`Find(sel).Attr(name)`), the combined
text of the matched elements (`Find(sel).Text()`), and the text of each matched
element (`Find(sel).Each`). -/
structure Document where
  attr : String → String → Option String
  text : String → String
  each : String → List String

/-- Go `scrapeTEDTalk(doc, tedTalks)`. -/
def scrapeTEDTalk (doc : Document) (tedTalks : List TEDTalk) : String :=
  let title := (doc.attr "meta[property='og:title']" "content").getD "No title found"
  let speaker := doc.text ".talk-speaker__name"
  if title != "" || speaker != "" then SearchTEDTalk title speaker tedTalks
  else "Could not extract TED Talk details."

/-! ## The fetcher -/

/-- The outcome of one `client.Get(url)`: a transport error, or a response with
its status code and what `goquery.NewDocumentFromReader(resp.Body)` gives. -/
inductive Attempt where
  | transportError (err : String)
  | response (StatusCode : Int) (body : Except String Document)

/-- The errors `fetchURLContent` returns. -/
inductive FetchError where
  /-- the error of `goquery.NewDocumentFromReader` -/
  | parse (err : String)
  /-- "request failed with status code: %d" -/
  | status (code : Int)
  /-- "failed to scrape content from URL: %s after %d retries" -/
  | exhausted (url : String) (maxRetries : Int)
deriving DecidableEq, Repr

/-- The result of `fetchURLContent`, with the number of `client.Get` calls made
and the value of `retries` on return. -/
structure FetchResult where
  text : String
  err : Option FetchError
  requests : Nat
  retries : Int
deriving DecidableEq, Repr

/-- The `Each` callback of `fetchURLContent` over the elements matched by one
selector. -/
def appendTexts (mainText : String) : List String → String
  | [] => mainText
  | s :: rest =>
    let text := cleanText s
    appendTexts (if text != "" then mainText ++ text ++ "\n" else mainText) rest

/-- The selector loop of `fetchURLContent`. -/
def extractMainText (doc : Document) : List String → String → String
  | [], mainText => mainText
  | selector :: rest, mainText =>
    let mainText := appendTexts mainText (doc.each selector)
    if mainText != "" then mainText else extractMainText doc rest mainText

/-- Go `http.StatusOK`. -/
def StatusOK : Int := 200

/-- The loop `for retries < maxRetries` of `fetchURLContent`; `get n` is the
outcome of the `n`-th call of `client.Get` (counting from 0).  `none` when the
iteration bound `fuel` is used up. -/
def fetchLoop (url : String) (maxRetries : Int) (get : Nat → Attempt) :
    Nat → Int → Nat → Option FetchResult
  | 0, _, _ => none
  | fuel + 1, retries, requests =>
    if retries < maxRetries then
      match get requests with
      | .transportError _ => fetchLoop url maxRetries get fuel (retries + 1) (requests + 1)
      | .response code body =>
        if code = StatusOK then
          match body with
          | .error e => some ⟨"", some (.parse e), requests + 1, retries⟩
          | .ok doc =>
            some ⟨extractMainText doc ["article", "div.main-content", "body"] "", none,
              requests + 1, retries⟩
        else some ⟨"", some (.status code), requests + 1, retries⟩
    else some ⟨"", some (.exhausted url maxRetries), requests, retries⟩

/-- Go `fetchURLContent(url, maxRetries, retryDelay, timeout)` against the
outcomes `get` of the successive requests.  The loop runs at most
`maxRetries + 1` times. -/
def fetchURLContent (url : String) (maxRetries : Int) (get : Nat → Attempt) :
    Option FetchResult :=
  fetchLoop url maxRetries get (maxRetries.toNat + 1) 0 0

/-! ## Context assembly (`main.go`) -/

/-- Go `ChunkData`: a retrieved chunk with the title and link of its page. -/
structure ChunkData where
  Title : String
  Link : String
  Text : String
deriving DecidableEq, Repr

/-- The loop of `main` over the retrieved chunks, on the variable `context`. -/
def assembleContext (query : String) : List ChunkData → String → String
  | [], context => context
  | chunk :: rest, context =>
    if chunk.Text == query then assembleContext query rest context
    else
      assembleContext query rest
        (context ++
          ("Title of the website where the following paragraph was obtained from -> " ++
            chunk.Title ++ ". Link of the website -> " ++ chunk.Link ++ " . Paragraph -> " ++
            chunk.Text ++ " . End of that paragraph.\n Starting new paragraph :  \n"))

/-- The paragraph that one chunk contributes to the context. -/
def paragraph (chunk : ChunkData) : String :=
  "Title of the website where the following paragraph was obtained from -> " ++
    chunk.Title ++ ". Link of the website -> " ++ chunk.Link ++ " . Paragraph -> " ++
    chunk.Text ++ " . End of that paragraph.\n Starting new paragraph :  \n"

/-- Concatenation of a list of strings, in order. -/
def concatAll : List String → String
  | [] => ""
  | s :: rest => s ++ concatAll rest

/-! ## Decoding a cached embedding -/

/-- A Go `byte`. -/
abbrev Byte := Fin 256

/-- The run-time panic of an index expression. -/
inductive Panic where
  /-- "index out of range [index] with length length" -/
  | indexOutOfRange (index length : Nat)
deriving DecidableEq, Repr

/-- Go `s[i]` as a value: the element, or the panic when `i` is out of range. -/
def index {α : Type} (s : List α) (i : Nat) : Except Panic α :=
  match s[i]? with
  | some x => .ok x
  | none => .error (.indexOutOfRange i s.length)

/-- Go `s[i] = v`: the updated slice, or the panic when `i` is out of range. -/
def assign {α : Type} (s : List α) (i : Nat) (v : α) : Except Panic (List α) :=
  if i < s.length then .ok (s.set i v) else .error (.indexOutOfRange i s.length)

/-- Go `x << k` on `uint32`. -/
def shl32 (x k : Nat) : Nat := (x <<< k) % 2 ^ 32

/-- Go `math.Float32frombits`: the `float32` with the given IEEE 754 bit
pattern (sign bit, 8 exponent bits, 23 fraction bits). -/
def Float32frombits (bits : Nat) : FP :=
  let sign := decide (bits / 2 ^ 31 % 2 = 1)
  let e : Nat := bits / 2 ^ 23 % 256
  let frac : Nat := bits % 2 ^ 23
  if e = 255 then (if frac = 0 then .inf sign else .nan)
  else if e = 0 then (if frac = 0 then .fin sign 0 0 else .fin sign frac (-149))
  else .fin sign (2 ^ 23 + frac) ((e : Int) - 150)

/-- The body of the conversion loop of `GetCachedEmbeddings` at index `i`: the
four byte reads, left to right, and the store into `embedding[i/4]`. -/
def convertStep (embeddingBytes : List Byte) (i : Nat) (embedding : List FP) :
    Except Panic (List FP) := do
  let b0 ← index embeddingBytes i
  let b1 ← index embeddingBytes (i + 1)
  let b2 ← index embeddingBytes (i + 2)
  let b3 ← index embeddingBytes (i + 3)
  let bits := b0.val ||| shl32 b1.val 8 ||| shl32 b2.val 16 ||| shl32 b3.val 24
  assign embedding (i / 4) (Float32frombits bits)

/-- The loop `for i := 0; i < len(embeddingBytes); i += 4` of
`GetCachedEmbeddings`.  `none` when the iteration bound `fuel` is used up. -/
def convertLoop (embeddingBytes : List Byte) :
    Nat → Nat → List FP → Option (Except Panic (List FP))
  | 0, _, _ => none
  | fuel + 1, i, embedding =>
    if i < embeddingBytes.length then
      match convertStep embeddingBytes i embedding with
      | .error p => some (.error p)
      | .ok embedding => convertLoop embeddingBytes fuel (i + 4) embedding
    else some (.ok embedding)

/-- The conversion of the decoded bytes of one cached member in
`GetCachedEmbeddings`: `embedding := make([]float32, len(embeddingBytes)/4)`, then
the loop.  The loop test runs at most `len(embeddingBytes)/4 + 1` times. -/
def bytesToEmbedding (embeddingBytes : List Byte) : Option (Except Panic (List FP)) :=
  convertLoop embeddingBytes (embeddingBytes.length / 4 + 1) 0
    (List.replicate (embeddingBytes.length / 4) FP.zero)

/-- The `uint32` with the four bytes at `4j .. 4j+3` in little-endian order. -/
def littleEndian (embeddingBytes : List Byte) (j : Nat) : Nat :=
  (embeddingBytes.getD (4 * j) 0).val + 2 ^ 8 * (embeddingBytes.getD (4 * j + 1) 0).val +
    2 ^ 16 * (embeddingBytes.getD (4 * j + 2) 0).val +
    2 ^ 24 * (embeddingBytes.getD (4 * j + 3) 0).val

/-- The bytes of the `float32` values `1.0` and `-2.5`, little-endian. -/
def twoFloats : List Byte := [0, 0, 128, 63, 0, 0, 32, 192]

/-- Six bytes: one `float32` and two bytes more. -/
def sixBytes : List Byte := [0, 0, 128, 63, 0, 0]

/-- A field as `strings.Fields` produces them: not empty, without white space. -/
def IsField (f : List Char) : Prop := f ≠ [] ∧ ∀ c ∈ f, unicodeIsSpace c = false

/-- No two adjacent characters are both white space. -/
def NoAdjacentSpaces (l : List Char) : Prop :=
  l.Chain' (fun a b => ¬ (unicodeIsSpace a = true ∧ unicodeIsSpace b = true))

/-- The last `n` elements of a list. -/
def lastN {α : Type} (n : Nat) (l : List α) : List α := l.drop (l.length - n)

/-- The sorted-set entry of an insert. -/
def toZ (i : Int × String) : Z := ⟨i.1, i.2⟩

/-- Six inserts at increasing times, the sixth of the embedding inserted first. -/
def reinserted : List (Int × String) :=
  [(1, "a"), (2, "b"), (3, "c"), (4, "d"), (5, "e"), (6, "a")]

/-- Two inserts of one embedding at increasing times. -/
def insertedTwice : List (Int × String) := [(1, "a"), (2, "a")]

/-- Six inserts of distinct embeddings at increasing times. -/
def sixInserts : List (Int × String) :=
  [(1, "a"), (2, "b"), (3, "c"), (4, "d"), (5, "e"), (6, "f")]

/-- The squared norm as `cosineSimilarity` accumulates it (`normA`, `normB`). -/
def normSq (a : List FP) : FP :=
  a.foldl (fun acc x => FP.add binary32 acc (FP.mul binary32 x x)) FP.zero

/-- The test `normA == 0` of `cosineSimilarity` for a vector. -/
def zeroNorm (a : List FP) : Bool := FP.eq (normSq a) FP.zero

/-- The test `similarity > threshold` of `FindSimilarEmbedding`. -/
def exceeds (query : List FP) (threshold : FP) (cached : List FP) : Bool :=
  FP.gt (cosineSimilarity query cached) threshold

/-- The `float32` values `1`, `2` and `-1`. -/
def f32one : FP := FP.ofInt binary32 1
/-- The `float32` value `2`. -/
def f32two : FP := FP.ofInt binary32 2
/-- The `float32` value `-1`. -/
def f32minusOne : FP := FP.ofInt binary32 (-1)

/-- Whether a request failed at transport level. -/
def Attempt.isTransportError : Attempt → Bool
  | .transportError _ => true
  | .response _ _ => false

/-- The no-match result of `SearchTEDTalk`. -/
def noMatch : String := "No matching TED Talk found."

/-- A page whose `og:title` tag has an empty `content` and which has no speaker
element. -/
def emptyMetadataPage : Document :=
  ⟨fun sel name => if sel = "meta[property='og:title']" ∧ name = "content" then some "" else none,
   fun _ => "", fun _ => []⟩

/-- A page with no `og:title` tag and no speaker element. -/
def noMetadataPage : Document := ⟨fun _ _ => none, fun _ => "", fun _ => []⟩

/-- The catalog of scenario A. -/
def vulnerabilityTalk : TEDTalk := ⟨"The Power of Vulnerability", "transcript", "Brené Brown"⟩

/-- A catalog entry whose title is the scraped title of scenario A. -/
def exactTalk : TEDTalk := ⟨"The power of vulnerability", "other transcript", "Brené Brown"⟩

/-- A page whose body holds one text block. -/
def helloPage : Document :=
  ⟨fun _ _ => none, fun _ => "", fun sel => if sel = "body" then ["  hello \n world "] else []⟩

/-- A server that answers every request with HTTP 500. -/
def always500 : Nat → Attempt := fun _ => .response 500 (.error "")

/-- A server whose first two requests time out and whose third succeeds. -/
def twoTimeouts : Nat → Attempt :=
  fun n => if n < 2 then .transportError "timeout" else .response 200 (.ok helloPage)

/-- A server that never answers. -/
def alwaysTimeout : Nat → Attempt := fun _ => .transportError "timeout"

/-- The last row of the edit matrix that `DistanceForStrings` computes. -/
def lastRow (op : Options) (source target : List Char) : List Nat :=
  fillRows op target source 1 (firstRow op target)

/-- The formula of the specification read with the Levenshtein distance
(insertion, deletion and substitution each cost 1) and the number of characters:
`(1 - editDistance(a,b) / max(len(a), len(b))) * 100`. -/
def specSimilarity (a b : String) : FP :=
  FP.mul binary64
    (FP.sub binary64 (FP.ofInt binary64 1)
      (FP.div binary64
        (FP.ofInt binary64 ((levenshtein Levenshtein.defaultCost a.toList b.toList : Nat) : Int))
        (FP.ofInt binary64 ((max a.length b.length : Nat) : Int))))
    (FP.ofInt binary64 100)

/-- The catalog title of scenario A. -/
def catalogTitle : String := "The Power of Vulnerability"

/-- The scraped title of scenario A. -/
def scrapedTitle : String := "The power of vulnerability"

/-- The `float32` value `2^64`, whose square overflows `float32`. -/
def f32big : FP := .fin false 8388608 41

/-- A catalog entry whose title is the default title of `scrapeTEDTalk`. -/
def noTitleTalk : TEDTalk := ⟨"No title found", "some unrelated transcript", "someone"⟩

/-- A server that answers every request with HTTP 201 and a page. -/
def always201 : Nat → Attempt := fun _ => .response 201 (.ok helloPage)

/-- A server whose first request times out and whose second answers HTTP 200
with a body that cannot be read. -/
def unreadable200 : Nat → Attempt :=
  fun n => if n < 1 then .transportError "timeout" else .response 200 (.error "unexpected EOF")

/-! ## Theorems: the embedding cache -/

theorem ZRemRangeByRank_trim (key : SortedSet) :
    ZRemRangeByRank key 0 (-CacheSize - 1) = key.drop (key.length - 5) := by
  unfold ZRemRangeByRank CacheSize
  simp only [lt_self_iff_false, if_false]
  by_cases h : key.length ≤ 5
  · have h0 : key.length - 5 = 0 := by omega
    rw [h0, List.drop_zero]
    split_ifs <;> first | rfl | omega
  · have h1 : ((key.length : Int) + -6).toNat + 1 = key.length - 5 := by omega
    split_ifs <;> first | omega | simp [h1]

theorem ZRange_all (key : SortedSet) : ZRange key 0 (-1) = key.map Z.Member := by
  unfold ZRange
  simp only [lt_self_iff_false, if_false]
  cases key with
  | nil => simp
  | cons z zs =>
    have h1 : (((z :: zs).length : Int) + -1).toNat + 1 = (z :: zs).length := by
      simp only [List.length_cons]; omega
    split_ifs <;> first | (simp only [List.length_cons] at *; omega) | simp [h1]

theorem CacheEmbedding_length (cache : SortedSet) (now : Int) (member : String) :
    ((CacheEmbedding cache now member).length : Int) ≤ CacheSize := by
  unfold CacheEmbedding
  rw [ZRemRangeByRank_trim, List.length_drop]
  unfold CacheSize
  omega

theorem place_last (z : Z) (c : SortedSet) (h : ∀ y ∈ c, y.Score < z.Score) :
    SortedSet.place z c = c ++ [z] := by
  induction c with
  | nil => rfl
  | cons y ys ih =>
    have hy : y.Score < z.Score := h y (List.mem_cons_self _ _)
    have hle : z.le y = false := by
      unfold Z.le
      have h1 : ¬ z.Score < y.Score := by omega
      have h2 : ¬ z.Score = y.Score := by omega
      simp [h1, h2]
    simp only [SortedSet.place, hle, Bool.false_eq_true, if_false, List.cons_append]
    rw [ih (fun w hw => h w (List.mem_cons_of_mem _ hw))]

theorem ZAdd_fresh (z : Z) (c : SortedSet) (hs : ∀ y ∈ c, y.Score < z.Score)
    (hm : ∀ y ∈ c, y.Member ≠ z.Member) : ZAdd c z = c ++ [z] := by
  unfold ZAdd
  have hf : c.filter (fun y => y.Member != z.Member) = c := by
    apply List.filter_eq_self.mpr
    intro y hy
    simpa using hm y hy
  rw [hf]
  exact place_last z c hs

theorem cacheAll_snoc (cache : SortedSet) (l : List (Int × String)) (x : Int × String) :
    cacheAll cache (l ++ [x]) = CacheEmbedding (cacheAll cache l) x.1 x.2 := by
  simp [cacheAll, List.foldl_append]

theorem cacheAll_fresh (inserts : List (Int × String))
    (hts : inserts.Pairwise (fun a b => a.1 < b.1))
    (hdistinct : (inserts.map Prod.snd).Nodup) :
    cacheAll [] inserts = (lastN 5 inserts).map toZ := by
  induction inserts using List.reverseRecOn with
  | nil => rfl
  | append_singleton l x ih =>
    rw [List.pairwise_append] at hts
    rw [List.map_append, List.nodup_append] at hdistinct
    obtain ⟨hl, -, hlx⟩ := hts
    obtain ⟨hn, -, hdis⟩ := hdistinct
    rw [cacheAll_snoc, ih hl hn]
    unfold CacheEmbedding
    have hadd : ZAdd ((lastN 5 l).map toZ) ⟨x.1, x.2⟩ = (lastN 5 l).map toZ ++ [toZ x] := by
      apply ZAdd_fresh
      · intro y hy
        obtain ⟨a, ha, rfl⟩ := List.mem_map.mp hy
        exact hlx a (List.mem_of_mem_drop ha) x (List.mem_singleton_self x)
      · intro y hy
        obtain ⟨a, ha, rfl⟩ := List.mem_map.mp hy
        intro heq
        have h1 : a.2 ∈ l.map Prod.snd := List.mem_map_of_mem _ (List.mem_of_mem_drop ha)
        have h2 : x.2 ∈ [x].map Prod.snd := by simp
        exact hdis h1 (by rw [show a.2 = x.2 from heq]; exact h2)
    rw [hadd, ZRemRangeByRank_trim]
    unfold lastN
    simp only [List.length_append, List.length_map, List.length_drop, List.length_singleton,
      List.map_append, List.map_drop, List.map_cons, List.map_nil]
    by_cases h5 : l.length < 5
    · have e1 : l.length - 5 = 0 := by omega
      have e2 : l.length - (l.length - 5) + 1 - 5 = 0 := by omega
      have e3 : l.length + 1 - 5 = 0 := by omega
      simp [e1, e2, e3]
    · have e2 : l.length - (l.length - 5) + 1 - 5 = 1 := by omega
      have e3 : l.length + 1 - 5 = l.length - 5 + 1 := by omega
      rw [e2, e3]
      rw [List.drop_append_of_le_length (by simp; omega)]
      rw [List.drop_append_of_le_length (by simp; omega)]
      rw [List.drop_drop, Nat.add_comm]

/-- C1: a cache holding at most `CacheSize = 5` entries holds at most `CacheSize`
entries at every observation point of any run of inserts: after each of the
first `n` inserts, for every `n` (and before the first one). -/
theorem cache_size_bounded (cache : SortedSet) (hcache : (cache.length : Int) ≤ CacheSize)
    (inserts : List (Int × String)) (n : Nat) :
    ((cacheAll cache (inserts.take n)).length : Int) ≤ CacheSize := by
  induction inserts generalizing cache n with
  | nil => simpa [cacheAll] using hcache
  | cons x xs ih =>
    cases n with
    | zero => simpa [cacheAll] using hcache
    | succ n =>
      simp only [List.take_succ_cons, cacheAll, List.foldl_cons]
      exact ih _ (CacheEmbedding_length _ _ _) n

/-- A full cache and the first two of three further inserts. -/
theorem cache_size_bounded_witness :
    (([⟨1, "a"⟩, ⟨2, "b"⟩, ⟨3, "c"⟩, ⟨4, "d"⟩, ⟨5, "e"⟩] : SortedSet).length : Int) ≤ CacheSize ∧
    ((cacheAll [⟨1, "a"⟩, ⟨2, "b"⟩, ⟨3, "c"⟩, ⟨4, "d"⟩, ⟨5, "e"⟩]
      ([(6, "f"), (7, "g"), (8, "a")].take 2)).length : Int) ≤ CacheSize :=
  ⟨by decide, cache_size_bounded _ (by decide) _ 2⟩

/-- C2 as stated fails when an embedding is inserted again: the sorted set keeps
one entry per member.  After inserting `a, b, c, d, e, a` at times `1..6` the
embedding inserted first is still among the members a lookup scans, and after
inserting `a, a` the cache holds one entry, not the `min 2 5 = 2` last inserted. -/
theorem cache_most_recent_counterexample :
    (reinserted.Pairwise (fun a b => a.1 < b.1) ∧ reinserted.length = 6 ∧
      reinserted.head? = some (1, "a") ∧
      "a" ∈ ZRange (cacheAll [] reinserted) 0 (-1)) ∧
    (insertedTwice.Pairwise (fun a b => a.1 < b.1) ∧
      ZRange (cacheAll [] insertedTwice) 0 (-1) ≠
        lastN (min insertedTwice.length CacheSize.toNat) (insertedTwice.map Prod.snd)) := by
  refine ⟨⟨by decide, by decide, by decide, by decide⟩, by decide, by decide⟩

/-- C2 (amended): after any run of `k` inserts of pairwise distinct embeddings
with strictly increasing timestamps into an empty cache, the members a lookup
scans (`ZRange 0 -1`) are exactly the last `min k CacheSize` inserted, in
insertion order; and when `k > CacheSize` the first inserted is not among them. -/
theorem cache_keeps_most_recent (inserts : List (Int × String))
    (hts : inserts.Pairwise (fun a b => a.1 < b.1))
    (hdistinct : (inserts.map Prod.snd).Nodup) :
    ZRange (cacheAll [] inserts) 0 (-1) =
        lastN (min inserts.length CacheSize.toNat) (inserts.map Prod.snd) ∧
    (ZRange (cacheAll [] inserts) 0 (-1)).length = min inserts.length CacheSize.toNat ∧
    (CacheSize.toNat < inserts.length →
      ∀ first ∈ inserts.head?, first.2 ∉ ZRange (cacheAll [] inserts) 0 (-1)) := by
  have hN : CacheSize.toNat = 5 := by decide
  have hR : ZRange (cacheAll [] inserts) 0 (-1) = (inserts.map Prod.snd).drop (inserts.length - 5) := by
    rw [ZRange_all, cacheAll_fresh inserts hts hdistinct]
    unfold lastN
    simp only [List.map_drop, List.map_map]
    rfl
  rw [hR, hN]
  refine ⟨?_, ?_, ?_⟩
  · unfold lastN
    congr 1
    simp only [List.length_map]
    omega
  · simp only [List.length_drop, List.length_map]
    omega
  · intro hk first hfirst
    cases inserts with
    | nil => simp at hfirst
    | cons i rest =>
      simp only [List.head?_cons, Option.mem_def, Option.some.injEq] at hfirst
      subst hfirst
      simp only [List.length_cons] at hk
      have e : (i :: rest).length - 5 = (rest.length - 5) + 1 := by
        simp only [List.length_cons]; omega
      rw [e]
      simp only [List.map_cons, List.drop_succ_cons]
      intro hmem
      have hnd : i.2 ∉ rest.map Prod.snd := by
        simp only [List.map_cons, List.nodup_cons] at hdistinct
        exact hdistinct.1
      exact hnd (List.mem_of_mem_drop hmem)

/-- Scenario E: six distinct embeddings leave exactly the last five. -/
theorem cache_keeps_most_recent_witness :
    sixInserts.Pairwise (fun a b => a.1 < b.1) ∧ (sixInserts.map Prod.snd).Nodup ∧
    ZRange (cacheAll [] sixInserts) 0 (-1) = ["b", "c", "d", "e", "f"] ∧
    (ZRange (cacheAll [] sixInserts) 0 (-1) =
        lastN (min sixInserts.length CacheSize.toNat) (sixInserts.map Prod.snd) ∧
      (ZRange (cacheAll [] sixInserts) 0 (-1)).length = min sixInserts.length CacheSize.toNat ∧
      (CacheSize.toNat < sixInserts.length →
        ∀ first ∈ sixInserts.head?, first.2 ∉ ZRange (cacheAll [] sixInserts) 0 (-1))) :=
  ⟨by decide, by decide, by decide, cache_keeps_most_recent sixInserts (by decide) (by decide)⟩

/-! ## Theorems: similarity lookup -/

theorem findSimilarLoop_eq_find (query : List FP) (threshold : FP) (cached : List (List FP)) :
    findSimilarLoop query threshold cached =
      match cached.find? (exceeds query threshold) with
      | some e => (some e, true)
      | none => (none, false) := by
  induction cached with
  | nil => rfl
  | cons c rest ih =>
    by_cases h : FP.gt (cosineSimilarity query c) threshold = true
    · simp [findSimilarLoop, List.find?, exceeds, h]
    · simp only [Bool.not_eq_true] at h
      simp only [findSimilarLoop, List.find?, exceeds, h, Bool.false_eq_true, if_false]
      exact ih

theorem findSimilarLoop_none_iff (query : List FP) (threshold : FP) (cached : List (List FP)) :
    findSimilarLoop query threshold cached = (none, false) ↔
      ∀ c ∈ cached, FP.gt (cosineSimilarity query c) threshold = false := by
  rw [findSimilarLoop_eq_find]
  cases hf : cached.find? (exceeds query threshold) with
  | none =>
    simp only [true_iff]
    intro c hc
    have := List.find?_eq_none.mp hf c hc
    simpa [exceeds] using this
  | some e =>
    simp only [Prod.mk.injEq, Bool.true_eq_false, and_false, false_iff, reduceCtorEq]
    intro hall
    have hmem := List.mem_of_find?_eq_some hf
    have hp := List.find?_some hf
    simp only [exceeds] at hp
    rw [hall e hmem] at hp
    exact Bool.false_ne_true hp

/-- C3: `FindSimilarEmbedding` returns `(e, true)` for the first cached embedding
`e`, in scan order, whose cosine similarity to the query is strictly greater than
the threshold; it returns `(nil, false)` exactly when no cached embedding has a
similarity strictly greater than the threshold, in particular on an empty cache;
it always returns, and a failed cache read gives `(nil, false)` too. -/
theorem FindSimilarEmbedding_first_match (query : List FP) (threshold : FP)
    (cached : List (List FP)) :
    (FindSimilarEmbedding (.ok cached) query threshold =
      match cached.find? (fun c => FP.gt (cosineSimilarity query c) threshold) with
      | some e => (some e, true)
      | none => (none, false)) ∧
    (FindSimilarEmbedding (.ok cached) query threshold = (none, false) ↔
      ∀ c ∈ cached, FP.gt (cosineSimilarity query c) threshold = false) ∧
    FindSimilarEmbedding (.ok []) query threshold = (none, false) ∧
    (∀ err, FindSimilarEmbedding (.error err) query threshold = (none, false)) := by
  exact ⟨findSimilarLoop_eq_find query threshold cached,
    findSimilarLoop_none_iff query threshold cached, rfl, fun _ => rfl⟩

theorem FP.mul_comm (f : Fmt) (x y : FP) : FP.mul f x y = FP.mul f y x := by
  cases x <;> cases y <;> simp [FP.mul, Bool.xor_comm, Nat.mul_comm, Int.add_comm]

theorem cosineLoop_swap (a b : List FP) (d na nb : FP) :
    cosineLoop b a (d, nb, na) =
      ((cosineLoop a b (d, na, nb)).1, (cosineLoop a b (d, na, nb)).2.2,
        (cosineLoop a b (d, na, nb)).2.1) := by
  induction a generalizing b d na nb with
  | nil => cases b <;> simp [cosineLoop]
  | cons x a ih =>
    cases b with
    | nil => simp [cosineLoop]
    | cons y b =>
      simp only [cosineLoop]
      rw [FP.mul_comm binary32 y x]
      exact ih b _ _ _

theorem cosineLoop_norms (a b : List FP) (h : a.length = b.length) (d na nb : FP) :
    (cosineLoop a b (d, na, nb)).2.1 =
        a.foldl (fun acc x => FP.add binary32 acc (FP.mul binary32 x x)) na ∧
    (cosineLoop a b (d, na, nb)).2.2 =
        b.foldl (fun acc x => FP.add binary32 acc (FP.mul binary32 x x)) nb := by
  induction a generalizing b d na nb with
  | nil =>
    cases b with
    | nil => simp [cosineLoop]
    | cons y b => simp at h
  | cons x a ih =>
    cases b with
    | nil => simp at h
    | cons y b =>
      simp only [List.length_cons, Nat.add_right_cancel_iff] at h
      simp only [cosineLoop, List.foldl_cons]
      exact ih b h _ _ _

theorem cosineSimilarity_zero_of_degenerate (a b : List FP)
    (h : a.length ≠ b.length ∨ zeroNorm a = true ∨ zeroNorm b = true) :
    cosineSimilarity a b = FP.zero := by
  unfold cosineSimilarity
  by_cases hlen : a.length = b.length
  · have hn := cosineLoop_norms a b hlen FP.zero FP.zero FP.zero
    simp only [hlen, ne_eq, not_true_eq_false, if_false]
    rcases h with h | h | h
    · exact absurd hlen h
    · have : FP.eq (cosineLoop a b (FP.zero, FP.zero, FP.zero)).2.1 FP.zero = true := by
        rw [hn.1]; exact h
      simp [this]
    · have : FP.eq (cosineLoop a b (FP.zero, FP.zero, FP.zero)).2.2 FP.zero = true := by
        rw [hn.2]; exact h
      simp [this]
  · simp [hlen]

/-- C4 as stated fails for a negative threshold: a cached embedding whose
dimension differs from the query's, or whose norm is zero, scores `0`, and
`0 > -1`, so it is returned as a match. -/
theorem FindSimilarEmbedding_degenerate_counterexample :
    ([f32one, f32two].length ≠ [f32one].length ∧
      FindSimilarEmbedding (.ok [[f32one, f32two]]) [f32one] f32minusOne =
        (some [f32one, f32two], true)) ∧
    (zeroNorm [FP.zero] = true ∧
      FindSimilarEmbedding (.ok [[FP.zero]]) [f32one] f32minusOne = (some [FP.zero], true)) := by
  refine ⟨⟨by decide, by decide⟩, by decide, by decide⟩

/-- C4 (amended): for every threshold that is not negative (`0 > threshold` is
false), if the query has zero norm or every cached embedding has zero norm or a
dimension different from the query's, `FindSimilarEmbedding` returns not-found. -/
theorem FindSimilarEmbedding_degenerate (query : List FP) (threshold : FP)
    (cached : List (List FP)) (hthr : FP.gt FP.zero threshold = false)
    (hdeg : zeroNorm query = true ∨
      ∀ c ∈ cached, c.length ≠ query.length ∨ zeroNorm c = true) :
    FindSimilarEmbedding (.ok cached) query threshold = (none, false) := by
  apply (findSimilarLoop_none_iff query threshold cached).mpr
  intro c hc
  have hz : cosineSimilarity query c = FP.zero := by
    apply cosineSimilarity_zero_of_degenerate
    rcases hdeg with hq | hall
    · exact Or.inr (Or.inl hq)
    · rcases hall c hc with h | h
      · exact Or.inl (fun e => h e.symm)
      · exact Or.inr (Or.inr h)
  rw [hz]
  exact hthr

/-- Threshold `0`, a mismatched and a zero-norm cached embedding: not found. -/
theorem FindSimilarEmbedding_degenerate_witness :
    FP.gt FP.zero FP.zero = false ∧
    (∀ c ∈ [[f32one, f32two], [FP.zero]],
      c.length ≠ [f32one].length ∨ zeroNorm c = true) ∧
    FindSimilarEmbedding (.ok [[f32one, f32two], [FP.zero]]) [f32one] FP.zero = (none, false) :=
  ⟨by decide, by decide,
    FindSimilarEmbedding_degenerate [f32one] FP.zero [[f32one, f32two], [FP.zero]] (by decide)
      (Or.inr (by decide))⟩

/-- C5: `cosineSimilarity` is symmetric, `cosineSimilarity a b = cosineSimilarity b a`
for all vectors, and returns `0` whenever the lengths differ. -/
theorem cosineSimilarity_symmetric (a b : List FP) :
    cosineSimilarity a b = cosineSimilarity b a ∧
    (a.length ≠ b.length → cosineSimilarity a b = FP.zero) := by
  refine ⟨?_, fun h => cosineSimilarity_zero_of_degenerate a b (Or.inl h)⟩
  unfold cosineSimilarity
  by_cases hlen : a.length = b.length
  · simp only [hlen, ne_eq, not_true_eq_false, if_false]
    rw [cosineLoop_swap a b FP.zero FP.zero FP.zero]
    simp only []
    rw [Bool.or_comm, FP.mul_comm binary32 (sqrt32 _) (sqrt32 _)]
  · have hlen2 : ¬ b.length = a.length := fun e => hlen e.symm
    simp [hlen, hlen2]

/-- The vectors `(1, 2)` and `(2, 1)`, and a pair of different lengths. -/
theorem cosineSimilarity_symmetric_witness :
    cosineSimilarity [f32one, f32two] [f32two, f32one] =
        cosineSimilarity [f32two, f32one] [f32one, f32two] ∧
    ([f32one, f32two].length ≠ [f32one].length →
      cosineSimilarity [f32one, f32two] [f32one] = FP.zero) :=
  ⟨(cosineSimilarity_symmetric [f32one, f32two] [f32two, f32one]).1,
   (cosineSimilarity_symmetric [f32one, f32two] [f32one]).2⟩

/-- Where the norms overflow the result is NaN in either order, a value that Go's
`==` does not report equal to itself. -/
theorem cosineSimilarity_overflow :
    cosineSimilarity [f32big] [f32big] = .nan ∧ FP.eq .nan .nan = false := by
  refine ⟨by decide, by decide⟩

/-! ## Theorems: the catalog resolver -/

theorem SearchTEDTalk_eq_find (title speaker : String) (tedTalks : List TEDTalk) :
    SearchTEDTalk title speaker tedTalks =
      match tedTalks.find? (matchesTitle title) with
      | some talk => talk.Output
      | none => noMatch := by
  induction tedTalks with
  | nil => rfl
  | cons t rest ih =>
    by_cases h : matchesTitle title t = true
    · simp [SearchTEDTalk, List.find?, h]
    · simp only [Bool.not_eq_true] at h
      simp only [SearchTEDTalk, List.find?, h, Bool.false_eq_true, if_false]
      exact ih

/-- C8: the code misses the claim on a page without metadata.  The guard of
`scrapeTEDTalk` returns the not-found result, whatever the catalog, only when the
`og:title` tag is present with an empty `content` and the speaker is empty.  On
a page with no `og:title` tag and no speaker element the title is the default
"No title found", which is not empty: the result is that of `SearchTEDTalk` for
the title "No title found", so it depends on the catalog: a catalog entry titled
"No title found" is returned as a match, and another catalog gives the no-match
sentinel of `SearchTEDTalk`, not the not-found result of the guard. -/
theorem scrapeTEDTalk_default_title_defeats_guard :
    (∀ (doc : Document) (tedTalks : List TEDTalk),
      doc.attr "meta[property='og:title']" "content" = some "" →
      doc.text ".talk-speaker__name" = "" →
      scrapeTEDTalk doc tedTalks = "Could not extract TED Talk details.") ∧
    noMetadataPage.attr "meta[property='og:title']" "content" = none ∧
    noMetadataPage.text ".talk-speaker__name" = "" ∧
    (∀ tedTalks : List TEDTalk,
      scrapeTEDTalk noMetadataPage tedTalks = SearchTEDTalk "No title found" "" tedTalks) ∧
    scrapeTEDTalk noMetadataPage [noTitleTalk] = "some unrelated transcript" ∧
    scrapeTEDTalk noMetadataPage [vulnerabilityTalk] = "No matching TED Talk found." ∧
    scrapeTEDTalk noMetadataPage [] ≠ "Could not extract TED Talk details." ∧
    scrapeTEDTalk emptyMetadataPage [noTitleTalk] = "Could not extract TED Talk details." := by
  refine ⟨?_, rfl, rfl, fun _ => rfl, by decide, by decide, by decide, by decide⟩
  intro doc tedTalks htitle hspeaker
  unfold scrapeTEDTalk
  simp [htitle, hspeaker]

/-! ### The edit matrix -/

theorem fillRow_length (op : Options) (s : Char) (t : List Char) :
    ∀ (prev : List Nat) (left diag : Nat), prev.length = t.length →
      (fillRow op s t prev left diag).length = t.length := by
  induction t with
  | nil => intro prev left diag _; cases prev <;> simp [fillRow]
  | cons t0 t ih =>
    intro prev left diag h
    cases prev with
    | nil => simp at h
    | cons p0 prev =>
      simp only [List.length_cons, Nat.add_right_cancel_iff] at h
      simp only [fillRow, List.length_cons, ih prev _ _ h]

theorem fillRow_snoc (op : Options) (s y : Char) (p : Nat) (t : List Char) :
    ∀ (prev : List Nat) (left diag : Nat), prev.length = t.length →
      fillRow op s (t ++ [y]) (prev ++ [p]) left diag =
        fillRow op s t prev left diag ++
          [min (p + op.DelCost)
            (min (if op.Matches s y then (diag :: prev).getLast?.getD 0
                  else (diag :: prev).getLast?.getD 0 + op.SubCost)
              ((left :: fillRow op s t prev left diag).getLast?.getD 0 + op.InsCost))] := by
  induction t with
  | nil =>
    intro prev left diag h
    cases prev with
    | nil => simp [fillRow]
    | cons p0 prev => simp at h
  | cons t0 t ih =>
    intro prev left diag h
    cases prev with
    | nil => simp at h
    | cons p0 prev =>
      simp only [List.length_cons, Nat.add_right_cancel_iff] at h
      simp only [List.cons_append, fillRow, List.getLast?_cons_cons, List.append_eq]
      rw [ih prev _ _ h]

theorem nextRow_length (op : Options) (t : List Char) (i : Nat) (s : Char) (prev : List Nat)
    (h : prev.length = t.length + 1) : (nextRow op t i s prev).length = t.length + 1 := by
  cases prev with
  | nil => simp at h
  | cons p0 prev =>
    simp only [List.length_cons, Nat.add_right_cancel_iff] at h
    simp only [nextRow, List.length_cons, fillRow_length op s t prev _ _ h]

theorem nextRow_snoc (op : Options) (t : List Char) (y : Char) (i : Nat) (s : Char)
    (prev : List Nat) (p : Nat) (h : prev.length = t.length + 1) :
    nextRow op (t ++ [y]) i s (prev ++ [p]) =
      nextRow op t i s prev ++
        [min (p + op.DelCost)
          (min (if op.Matches s y then prev.getLast?.getD 0
                else prev.getLast?.getD 0 + op.SubCost)
            ((nextRow op t i s prev).getLast?.getD 0 + op.InsCost))] := by
  cases prev with
  | nil => simp at h
  | cons p0 prev =>
    simp only [List.length_cons, Nat.add_right_cancel_iff] at h
    simp only [List.cons_append, nextRow]
    rw [fillRow_snoc op s y p t prev _ _ h]

theorem firstRow_length (op : Options) (t : List Char) : (firstRow op t).length = t.length + 1 := by
  simp [firstRow]

theorem firstRow_snoc (op : Options) (t : List Char) (y : Char) :
    firstRow op (t ++ [y]) = firstRow op t ++ [(t.length + 1) * op.InsCost] := by
  simp [firstRow, List.range_succ]

theorem fillRows_length (op : Options) (t : List Char) (s : List Char) :
    ∀ (i : Nat) (prev : List Nat), prev.length = t.length + 1 →
      (fillRows op t s i prev).length = t.length + 1 := by
  induction s with
  | nil => intro i prev h; simpa [fillRows] using h
  | cons x s ih =>
    intro i prev h
    simp only [fillRows]
    exact ih _ _ (nextRow_length op t i x prev h)

theorem fillRows_snoc_target (op : Options) (t : List Char) (y : Char) (s : List Char) :
    ∀ (i : Nat) (prev : List Nat) (p : Nat), prev.length = t.length + 1 →
      ∃ q, fillRows op (t ++ [y]) s i (prev ++ [p]) = fillRows op t s i prev ++ [q] := by
  induction s with
  | nil => intro i prev p _; exact ⟨p, rfl⟩
  | cons x s ih =>
    intro i prev p h
    simp only [fillRows]
    rw [nextRow_snoc op t y i x prev p h]
    exact ih _ _ _ (nextRow_length op t i x prev h)

theorem fillRows_snoc_source (op : Options) (t : List Char) (x : Char) (s : List Char) :
    ∀ (i : Nat) (prev : List Nat),
      fillRows op t (s ++ [x]) i prev = nextRow op t (i + s.length) x (fillRows op t s i prev) := by
  induction s with
  | nil => intro i prev; simp [fillRows]
  | cons x0 s ih =>
    intro i prev
    simp only [List.cons_append, fillRows, List.length_cons, List.append_eq]
    rw [ih]
    congr 1
    omega

theorem lastRow_length (op : Options) (s t : List Char) : (lastRow op s t).length = t.length + 1 :=
  fillRows_length op t s 1 _ (firstRow_length op t)

theorem DistanceForStrings_eq (op : Options) (s t : List Char) :
    DistanceForStrings s t op = (lastRow op s t).getLast?.getD 0 := rfl

theorem lastRow_snoc_target (op : Options) (s t : List Char) (y : Char) :
    lastRow op s (t ++ [y]) = lastRow op s t ++ [DistanceForStrings s (t ++ [y]) op] := by
  obtain ⟨q, hq⟩ := fillRows_snoc_target op t y s 1 (firstRow op t) ((t.length + 1) * op.InsCost)
    (firstRow_length op t)
  have h : lastRow op s (t ++ [y]) = lastRow op s t ++ [q] := by
    unfold lastRow
    rw [firstRow_snoc, hq]
  rw [DistanceForStrings_eq, h]
  simp

theorem lastRow_snoc_source (op : Options) (s t : List Char) (x : Char) :
    lastRow op (s ++ [x]) t = nextRow op t (1 + s.length) x (lastRow op s t) :=
  fillRows_snoc_source op t x s 1 _

theorem DistanceForStrings_nil_left (op : Options) (t : List Char) :
    DistanceForStrings [] t op = t.length * op.InsCost := by
  rw [DistanceForStrings_eq]
  simp [lastRow, fillRows, firstRow, List.range_succ]

theorem DistanceForStrings_nil_right (op : Options) (s : List Char) :
    DistanceForStrings s [] op = s.length * op.DelCost := by
  rw [DistanceForStrings_eq]
  induction s using List.reverseRecOn with
  | nil =>
    have h : List.range 1 = [0] := rfl
    simp [lastRow, fillRows, firstRow, h]
  | append_singleton s x _ =>
    rw [lastRow_snoc_source]
    have hl := lastRow_length op s []
    cases hrow : lastRow op s [] with
    | nil => rw [hrow] at hl; simp at hl
    | cons p0 tail =>
      simp [nextRow, fillRow, Nat.add_comm]

theorem DistanceForStrings_snoc (op : Options) (s t : List Char) (x y : Char) :
    DistanceForStrings (s ++ [x]) (t ++ [y]) op =
      min (DistanceForStrings s (t ++ [y]) op + op.DelCost)
        (min (if op.Matches x y then DistanceForStrings s t op
              else DistanceForStrings s t op + op.SubCost)
          (DistanceForStrings (s ++ [x]) t op + op.InsCost)) := by
  rw [DistanceForStrings_eq op (s ++ [x]) (t ++ [y]), lastRow_snoc_source, lastRow_snoc_target,
    nextRow_snoc op t y _ x _ _ (lastRow_length op s t), ← lastRow_snoc_source]
  simp [DistanceForStrings_eq]

/-! ### Similarity and the catalog search -/

theorem find?_eq_none_iff_all_false {α : Type} (p : α → Bool) (l : List α) :
    l.find? p = none ↔ ∀ x ∈ l, p x = false := by
  rw [List.find?_eq_none]
  constructor
  · intro h x hx; simpa using h x hx
  · intro h x hx; simp [h x hx]

/-- C6: `SearchTEDTalk` returns the `Output` of the first catalog entry, in catalog
order, whose `Similarity` to the title is at least 70, and falls through to the
no-match sentinel exactly when no entry scores at least 70.  The first sufficient
entry wins even when a later entry scores higher: with the catalog
`[vulnerabilityTalk, exactTalk]` the first entry is returned although the second
has the greater score.  Scenario A: with a catalog whose only entry is titled
"The Power of Vulnerability", the title "The power of vulnerability" resolves to
that entry's output. -/
theorem SearchTEDTalk_first_above_threshold (title speaker : String)
    (tedTalks : List TEDTalk) :
    (SearchTEDTalk title speaker tedTalks =
      match tedTalks.find?
        (fun talk => FP.ge (Similarity talk.Title title) (FP.ofInt binary64 70)) with
      | some talk => talk.Output
      | none => "No matching TED Talk found.") ∧
    (tedTalks.find? (fun talk => FP.ge (Similarity talk.Title title) (FP.ofInt binary64 70))
        = none ↔
      ∀ talk ∈ tedTalks, FP.ge (Similarity talk.Title title) (FP.ofInt binary64 70) = false) ∧
    (SearchTEDTalk scrapedTitle speaker [vulnerabilityTalk, exactTalk] =
        vulnerabilityTalk.Output ∧
      FP.lt (Similarity vulnerabilityTalk.Title scrapedTitle)
        (Similarity exactTalk.Title scrapedTitle) = true) ∧
    (∀ output talkSpeaker : String,
      SearchTEDTalk scrapedTitle speaker [⟨catalogTitle, output, talkSpeaker⟩] = output) := by
  refine ⟨SearchTEDTalk_eq_find title speaker tedTalks,
    find?_eq_none_iff_all_false _ tedTalks, ⟨?_, by decide⟩, ?_⟩
  · have h : matchesTitle scrapedTitle vulnerabilityTalk = true := by decide
    simp [SearchTEDTalk, h]
  · intro output talkSpeaker
    have h : matchesTitle scrapedTitle ⟨catalogTitle, output, talkSpeaker⟩ = true := by
      show FP.ge (Similarity catalogTitle scrapedTitle) (FP.ofInt binary64 70) = true
      decide
    simp [SearchTEDTalk, h]

/-- C7 as stated fails.  For "The Power of Vulnerability" and "The power of
vulnerability" the score is below 85, not about 96 (and the stated formula read
with the Levenshtein distance gives a score between 92 and 93).  The distance the
code uses is not the Levenshtein distance: for "a" and "b" it is 2, the
Levenshtein distance is 1, and the score is -100 where the stated formula
gives 0. -/
theorem Similarity_counterexample :
    FP.lt (Similarity catalogTitle scrapedTitle) (FP.ofInt binary64 85) = true ∧
    (FP.lt (FP.ofInt binary64 92) (specSimilarity catalogTitle scrapedTitle) = true ∧
      FP.lt (specSimilarity catalogTitle scrapedTitle) (FP.ofInt binary64 93) = true) ∧
    DistanceForStrings "a".toList "b".toList DefaultOptions = 2 ∧
    levenshtein Levenshtein.defaultCost "a".toList "b".toList = 1 ∧
    Similarity "a" "b" = FP.ofInt binary64 (-100) ∧
    specSimilarity "a" "b" = FP.ofInt binary64 0 ∧
    Similarity "a" "b" ≠ specSimilarity "a" "b" := by
  refine ⟨by decide, ⟨by decide, by decide⟩, by decide, by decide, by decide, by decide,
    by decide⟩

/-- C7 (amended): `Similarity a b` is `(1 - d / maxLen) * 100` computed in
`float64`, where `maxLen` is the larger of the two byte lengths and `d` is the
edit distance between the rune sequences in which an insertion and a deletion
cost 1 and a substitution costs 2 (`d(ε, t) = |t|`, `d(s, ε) = |s|`,
`d(s·x, t·y) = min (d(s, t·y) + 1) (d(s, t) + [0 if x = y, else 2]) (d(s·x, t) + 1)`).
For "The Power of Vulnerability" and "The power of vulnerability" the distance
is 4, `maxLen` is 26 and the score is about 84.6. -/
theorem Similarity_formula :
    (∀ a b : String, Similarity a b =
      FP.mul binary64
        (FP.sub binary64 (FP.ofInt binary64 1)
          (FP.div binary64
            (FP.ofInt binary64 (DistanceForStrings a.toList b.toList DefaultOptions))
            (FP.ofInt binary64 ((max a.utf8ByteSize b.utf8ByteSize : Nat) : Int))))
        (FP.ofInt binary64 100)) ∧
    (∀ t, DistanceForStrings [] t DefaultOptions = t.length) ∧
    (∀ s, DistanceForStrings s [] DefaultOptions = s.length) ∧
    (∀ s t x y, DistanceForStrings (s ++ [x]) (t ++ [y]) DefaultOptions =
      min (DistanceForStrings s (t ++ [y]) DefaultOptions + 1)
        (min (DistanceForStrings s t DefaultOptions + (if x = y then 0 else 2))
          (DistanceForStrings (s ++ [x]) t DefaultOptions + 1))) ∧
    DistanceForStrings catalogTitle.toList scrapedTitle.toList DefaultOptions = 4 ∧
    max catalogTitle.utf8ByteSize scrapedTitle.utf8ByteSize = 26 ∧
    FP.lt (FP.div binary64 (FP.ofInt binary64 8461) (FP.ofInt binary64 100))
      (Similarity catalogTitle scrapedTitle) = true ∧
    FP.lt (Similarity catalogTitle scrapedTitle)
      (FP.div binary64 (FP.ofInt binary64 8462) (FP.ofInt binary64 100)) = true := by
  refine ⟨?_, ?_, ?_, ?_, by decide, by decide, by decide, by decide⟩
  · intro a b
    unfold Similarity
    have h : (if b.utf8ByteSize > a.utf8ByteSize then b.utf8ByteSize else a.utf8ByteSize) =
        max a.utf8ByteSize b.utf8ByteSize := by
      split_ifs <;> omega
    simp only [h]
  · intro t
    simpa [DefaultOptions] using DistanceForStrings_nil_left DefaultOptions t
  · intro s
    simpa [DefaultOptions] using DistanceForStrings_nil_right DefaultOptions s
  · intro s t x y
    rw [DistanceForStrings_snoc]
    by_cases hxy : x = y
    · simp [DefaultOptions, hxy]
    · simp [DefaultOptions, hxy]

/-! ## Theorems: the fetcher -/

theorem fetchLoop_skip (url : String) (maxRetries : Int) (get : Nat → Attempt) (k : Nat) :
    ∀ (fuel : Nat) (retries : Int) (requests : Nat),
      (∀ i, i < k → (get (requests + i)).isTransportError = true) →
      retries + k ≤ maxRetries →
      fetchLoop url maxRetries get (fuel + k) retries requests =
        fetchLoop url maxRetries get fuel (retries + k) (requests + k) := by
  induction k with
  | zero => intro fuel retries requests _ _; simp
  | succ k ih =>
    intro fuel retries requests hget hle
    have h0 : (get requests).isTransportError = true := by
      have := hget 0 (Nat.succ_pos k)
      simpa using this
    have hlt : retries < maxRetries := by push_cast at hle; omega
    rw [show fuel + (k + 1) = (fuel + k) + 1 by omega]
    cases hg : get requests with
    | response code body => rw [hg] at h0; simp [Attempt.isTransportError] at h0
    | transportError err =>
      simp only [fetchLoop, hlt, if_true, hg]
      rw [ih fuel (retries + 1) (requests + 1)
        (fun i hi => by
          have := hget (i + 1) (by omega)
          rw [show requests + 1 + i = requests + (i + 1) by omega]
          exact this)
        (by push_cast at hle ⊢; omega)]
      congr 1
      · push_cast; omega
      · omega

theorem fetchURLContent_skip (url : String) (maxRetries : Int) (get : Nat → Attempt) (k : Nat)
    (hget : ∀ i, i < k → (get i).isTransportError = true) (hk : (k : Int) ≤ maxRetries) :
    fetchURLContent url maxRetries get =
      fetchLoop url maxRetries get (maxRetries.toNat + 1 - k) k k := by
  unfold fetchURLContent
  have h := fetchLoop_skip url maxRetries get k (maxRetries.toNat + 1 - k) 0 0
    (fun i hi => by simpa using hget i hi) (by simpa using hk)
  rw [show maxRetries.toNat + 1 - k + k = maxRetries.toNat + 1 by omega] at h
  rw [h]
  simp

/-- C9: if the first response (after `k < maxRetries` transport errors) has a
non-2xx status, `fetchURLContent` fails with the error carrying that status code
after exactly `k + 1` requests, whatever later requests would give; a URL
answering HTTP 500 yields the status error after one request and zero retries,
for every `maxRetries ≥ 1`. -/
theorem fetchURLContent_status_error (url : String) (maxRetries : Int) (get : Nat → Attempt)
    (k : Nat) (code : Int) (body : Except String Document)
    (hget : ∀ i, i < k → (get i).isTransportError = true)
    (hk : (k : Int) < maxRetries)
    (hresp : get k = .response code body)
    (hcode : code < 200 ∨ 299 < code) :
    fetchURLContent url maxRetries get = some ⟨"", some (.status code), k + 1, k⟩ ∧
    (k = 0 → code = 500 →
      fetchURLContent url maxRetries get = some ⟨"", some (.status 500), 1, 0⟩) := by
  have hne : ¬ code = StatusOK := by unfold StatusOK; omega
  have hmain : fetchURLContent url maxRetries get = some ⟨"", some (.status code), k + 1, k⟩ := by
    rw [fetchURLContent_skip url maxRetries get k hget (le_of_lt hk)]
    obtain ⟨f, hf⟩ : ∃ f, maxRetries.toNat + 1 - k = f + 1 := ⟨maxRetries.toNat - k, by omega⟩
    rw [hf]
    simp only [fetchLoop, hk, if_true, hresp, hne, if_false]
  refine ⟨hmain, ?_⟩
  intro h0 h500
  subst h0 h500
  simpa using hmain

/-- Scenario C: HTTP 500 on the first request, `maxRetries = 3`. -/
theorem fetchURLContent_status_error_witness :
    (∀ i, i < 0 → (always500 i).isTransportError = true) ∧ ((0 : Nat) : Int) < 3 ∧
    always500 0 = .response 500 (.error "") ∧ ((500 : Int) < 200 ∨ (299 : Int) < 500) ∧
    fetchURLContent "http://example.com" 3 always500 = some ⟨"", some (.status 500), 1, 0⟩ :=
  ⟨fun i hi => absurd hi (Nat.not_lt_zero i), by decide, rfl, by decide,
    (fetchURLContent_status_error "http://example.com" 3 always500 0 500 (.error "")
      (fun i hi => absurd hi (Nat.not_lt_zero i)) (by decide) rfl (by decide)).1⟩

theorem fetchLoop_response (url : String) (maxRetries : Int) (get : Nat → Attempt)
    (fuel n : Nat) (code : Int) (body : Except String Document)
    (hlt : (n : Int) < maxRetries) (hg : get n = .response code body) :
    ∃ r, fetchLoop url maxRetries get (fuel + 1) (n : Int) n = some r ∧
      r.requests = n + 1 := by
  by_cases hcode : code = StatusOK
  · cases body with
    | error e =>
      exact ⟨⟨"", some (.parse e), n + 1, n⟩,
        by simp only [fetchLoop, hlt, if_true, hg, hcode], rfl⟩
    | ok doc =>
      exact ⟨⟨extractMainText doc ["article", "div.main-content", "body"] "", none, n + 1, n⟩,
        by simp only [fetchLoop, hlt, if_true, hg, hcode], rfl⟩
  · exact ⟨⟨"", some (.status code), n + 1, n⟩,
      by simp only [fetchLoop, hlt, if_true, hg, hcode, if_false], rfl⟩

theorem fetchLoop_total (url : String) (maxRetries : Int) (get : Nat → Attempt) :
    ∀ (fuel n : Nat), n ≤ maxRetries.toNat → maxRetries.toNat - n < fuel →
      (∀ i, i < n → (get i).isTransportError = true) →
      ∃ r, fetchLoop url maxRetries get fuel (n : Int) n = some r ∧
        r.requests ≤ maxRetries.toNat ∧
        (∀ i, i + 1 < r.requests → (get i).isTransportError = true) ∧
        ((r.err = some (.exhausted url maxRetries) ∧ r.requests = maxRetries.toNat ∧
            ∀ i, i < r.requests → (get i).isTransportError = true) ∨
          (∃ k code body, r.requests = k + 1 ∧ get k = .response code body)) := by
  intro fuel
  induction fuel with
  | zero => intro n _ h; omega
  | succ fuel ih =>
    intro n hn hfuel hget
    by_cases hlt : (n : Int) < maxRetries
    · have hnM : n < maxRetries.toNat := by omega
      cases hg : get n with
      | transportError err =>
        simp only [fetchLoop, hlt, if_true, hg]
        have hcast : (n : Int) + 1 = ((n + 1 : Nat) : Int) := by push_cast; rfl
        rw [hcast]
        apply ih (n + 1) (by omega) (by omega)
        intro i hi
        by_cases hin : i = n
        · subst hin; rw [hg]; rfl
        · exact hget i (by omega)
      | response code body =>
        obtain ⟨r, hr, hreq⟩ := fetchLoop_response url maxRetries get fuel n code body hlt hg
        refine ⟨r, hr, by omega, fun i hi => hget i (by omega), Or.inr ⟨n, code, body, hreq, hg⟩⟩
    · have hnM : n = maxRetries.toNat := by omega
      refine ⟨⟨"", some (.exhausted url maxRetries), n, n⟩,
        by simp only [fetchLoop, hlt, if_false], by show n ≤ _; omega,
        fun i hi => hget i (by have h1 : i + 1 < n := hi; omega),
        Or.inl ⟨rfl, hnM, fun i hi => hget i hi⟩⟩

/-- C10 as stated fails for a successful response whose status is not 200: a
server answering HTTP 201 with a page gets the status error, not the text. -/
theorem fetchURLContent_success_counterexample :
    always201 0 = .response 201 (.ok helloPage) ∧ ((200 : Int) ≤ 201 ∧ (201 : Int) ≤ 299) ∧
    fetchURLContent "http://example.com" 3 always201 = some ⟨"", some (.status 201), 1, 0⟩ := by
  refine ⟨rfl, by decide, by decide⟩

/-- C10 (amended): `fetchURLContent` always returns, after at most `maxRetries`
requests, and every request that was followed by another one failed at transport
level.  If the first `k < maxRetries` attempts fail at transport level, then
attempt `k + 1` ends the call after exactly `k + 1` requests: a response with
status exactly 200 whose document parses gives the text extracted from it, with
no error; a response with any other status (2xx included) gives the error
carrying that status; a response with status 200 whose document does not parse
gives the parse error.  If the first `maxRetries` attempts all fail at transport
level, it returns the error naming the url and `maxRetries` after exactly
`maxRetries` requests. -/
theorem fetchURLContent_retries (url : String) (maxRetries : Int) (get : Nat → Attempt) :
    (∃ r, fetchURLContent url maxRetries get = some r ∧
      r.requests ≤ maxRetries.toNat ∧
      (∀ i, i + 1 < r.requests → (get i).isTransportError = true) ∧
      ((r.err = some (.exhausted url maxRetries) ∧ r.requests = maxRetries.toNat ∧
          ∀ i, i < r.requests → (get i).isTransportError = true) ∨
        (∃ k code body, r.requests = k + 1 ∧ get k = .response code body))) ∧
    (∀ (k : Nat) (doc : Document),
      (∀ i, i < k → (get i).isTransportError = true) → (k : Int) < maxRetries →
      get k = .response 200 (.ok doc) →
      fetchURLContent url maxRetries get =
        some ⟨extractMainText doc ["article", "div.main-content", "body"] "", none, k + 1, k⟩) ∧
    (∀ (k : Nat) (code : Int) (body : Except String Document),
      (∀ i, i < k → (get i).isTransportError = true) → (k : Int) < maxRetries →
      get k = .response code body → code ≠ 200 →
      fetchURLContent url maxRetries get = some ⟨"", some (.status code), k + 1, k⟩) ∧
    (∀ (k : Nat) (err : String),
      (∀ i, i < k → (get i).isTransportError = true) → (k : Int) < maxRetries →
      get k = .response 200 (.error err) →
      fetchURLContent url maxRetries get = some ⟨"", some (.parse err), k + 1, k⟩) ∧
    (0 ≤ maxRetries → (∀ i : Nat, (i : Int) < maxRetries → (get i).isTransportError = true) →
      fetchURLContent url maxRetries get =
        some ⟨"", some (.exhausted url maxRetries), maxRetries.toNat, maxRetries⟩) := by
  refine ⟨?_, ?_, ?_, ?_, ?_⟩
  · exact fetchLoop_total url maxRetries get (maxRetries.toNat + 1) 0 (Nat.zero_le _)
      (by omega) (fun i hi => absurd hi (Nat.not_lt_zero i))
  · intro k doc hget hk hresp
    rw [fetchURLContent_skip url maxRetries get k hget (le_of_lt hk)]
    obtain ⟨f, hf⟩ : ∃ f, maxRetries.toNat + 1 - k = f + 1 := ⟨maxRetries.toNat - k, by omega⟩
    rw [hf]
    simp only [fetchLoop, hk, if_true, hresp, StatusOK]
  · intro k code body hget hk hresp hcode
    have hne : ¬ code = StatusOK := hcode
    rw [fetchURLContent_skip url maxRetries get k hget (le_of_lt hk)]
    obtain ⟨f, hf⟩ : ∃ f, maxRetries.toNat + 1 - k = f + 1 := ⟨maxRetries.toNat - k, by omega⟩
    rw [hf]
    simp only [fetchLoop, hk, if_true, hresp, hne, if_false]
  · intro k err hget hk hresp
    rw [fetchURLContent_skip url maxRetries get k hget (le_of_lt hk)]
    obtain ⟨f, hf⟩ : ∃ f, maxRetries.toNat + 1 - k = f + 1 := ⟨maxRetries.toNat - k, by omega⟩
    rw [hf]
    simp only [fetchLoop, hk, if_true, hresp, StatusOK]
  · intro h0 hget
    have hk : ((maxRetries.toNat : Nat) : Int) = maxRetries := Int.toNat_of_nonneg h0
    rw [fetchURLContent_skip url maxRetries get maxRetries.toNat
      (fun i hi => hget i (by omega)) (by omega)]
    rw [show maxRetries.toNat + 1 - maxRetries.toNat = 0 + 1 by omega]
    simp only [fetchLoop, hk, lt_self_iff_false, if_false]

/-- Scenario D (two timeouts, then a page), a server that never answers, a
timeout followed by an unreadable page, and a server answering HTTP 201. -/
theorem fetchURLContent_retries_witness :
    fetchURLContent "http://example.com" 3 twoTimeouts =
      some ⟨"hello world\n", none, 3, 2⟩ ∧
    fetchURLContent "http://example.com" 3 alwaysTimeout =
      some ⟨"", some (.exhausted "http://example.com" 3), 3, 3⟩ ∧
    fetchURLContent "http://example.com" 3 unreadable200 =
      some ⟨"", some (.parse "unexpected EOF"), 2, 1⟩ ∧
    fetchURLContent "http://example.com" 3 always201 = some ⟨"", some (.status 201), 1, 0⟩ :=
  ⟨(fetchURLContent_retries "http://example.com" 3 twoTimeouts).2.1 2 helloPage
      (fun i hi => by
        have : i = 0 ∨ i = 1 := by omega
        rcases this with h | h <;> subst h <;> rfl)
      (by decide) rfl,
   (fetchURLContent_retries "http://example.com" 3 alwaysTimeout).2.2.2.2 (by decide)
      (fun _ _ => rfl),
   (fetchURLContent_retries "http://example.com" 3 unreadable200).2.2.2.1 1 "unexpected EOF"
      (fun i hi => by
        have : i = 0 := by omega
        subst this; rfl)
      (by decide) rfl,
   (fetchURLContent_retries "http://example.com" 3 always201).2.2.1 0 201 (.ok helloPage)
      (fun i hi => absurd hi (Nat.not_lt_zero i)) (by decide) rfl (by decide)⟩

/-! ## Theorems: context assembly -/

theorem assembleContext_acc (query : String) (chunks : List ChunkData) (context : String) :
    assembleContext query chunks context =
      context ++ concatAll ((chunks.filter (fun chunk => chunk.Text != query)).map paragraph) := by
  induction chunks generalizing context with
  | nil => simp [assembleContext, concatAll]
  | cons chunk rest ih =>
    by_cases h : chunk.Text = query
    · simp [assembleContext, h, ih]
    · have hne : (chunk.Text != query) = true := by simpa using h
      have hbeq : (chunk.Text == query) = false := by simpa using h
      simp only [assembleContext, hbeq, Bool.false_eq_true, if_false, List.filter_cons, hne,
        if_true, List.map_cons, concatAll]
      rw [ih, String.append_assoc]
      rfl

/-- C12: for every query and every list of retrieved chunks, the assembled context
is the concatenation, in chunk order, of the formatted title/link/text paragraph
of exactly the chunks whose `Text` differs from the query; a chunk whose `Text`
equals the query contributes nothing, and an empty chunk list gives the empty
context. -/
theorem assembleContext_self_match_guard (query : String) (chunks : List ChunkData) :
    assembleContext query chunks "" =
        concatAll ((chunks.filter (fun chunk => chunk.Text != query)).map paragraph) ∧
    (∀ (before after : List ChunkData) (chunk : ChunkData), chunk.Text = query →
      assembleContext query (before ++ chunk :: after) "" =
        assembleContext query (before ++ after) "") ∧
    assembleContext query [] "" = "" := by
  refine ⟨?_, ?_, rfl⟩
  · rw [assembleContext_acc]; simp
  · intro before after chunk h
    rw [assembleContext_acc, assembleContext_acc]
    simp [List.filter_append, List.filter_cons, h]

/-! ## Theorems: decoding a cached embedding -/

theorem shl32_byte (b k : Nat) (hb : b < 256) (hk : k ≤ 24) : shl32 b k = 2 ^ k * b := by
  unfold shl32
  rw [Nat.shiftLeft_eq, Nat.mul_comm]
  apply Nat.mod_eq_of_lt
  calc 2 ^ k * b < 2 ^ k * 256 := Nat.mul_lt_mul_of_pos_left hb (Nat.two_pow_pos k)
    _ ≤ 2 ^ 24 * 256 := Nat.mul_le_mul_right _ (Nat.pow_le_pow_right (by decide) hk)
    _ = 2 ^ 32 := by norm_num

theorem bits_little_endian (b0 b1 b2 b3 : Nat) (h0 : b0 < 256) (h1 : b1 < 256)
    (h2 : b2 < 256) (h3 : b3 < 256) :
    b0 ||| shl32 b1 8 ||| shl32 b2 16 ||| shl32 b3 24 =
      b0 + 2 ^ 8 * b1 + 2 ^ 16 * b2 + 2 ^ 24 * b3 := by
  rw [shl32_byte b1 8 h1 (by decide), shl32_byte b2 16 h2 (by decide),
    shl32_byte b3 24 h3 (by decide)]
  have e1 : b0 ||| 2 ^ 8 * b1 = 2 ^ 8 * b1 + b0 := by
    rw [Nat.lor_comm, ← Nat.mul_add_lt_is_or (by norm_num; omega)]
  have e2 : (2 ^ 8 * b1 + b0) ||| 2 ^ 16 * b2 = 2 ^ 16 * b2 + (2 ^ 8 * b1 + b0) := by
    rw [Nat.lor_comm, ← Nat.mul_add_lt_is_or (by norm_num; omega)]
  have e3 : (2 ^ 16 * b2 + (2 ^ 8 * b1 + b0)) ||| 2 ^ 24 * b3 =
      2 ^ 24 * b3 + (2 ^ 16 * b2 + (2 ^ 8 * b1 + b0)) := by
    rw [Nat.lor_comm, ← Nat.mul_add_lt_is_or (by norm_num; omega)]
  rw [e1, e2, e3]
  omega

theorem index_in_range (s : List Byte) (i : Nat) (h : i < s.length) :
    index s i = .ok (s.getD i 0) := by
  unfold index
  rw [List.getD_eq_getElem?_getD, List.getElem?_eq_getElem h]
  rfl

theorem index_out_of_range (s : List Byte) (i : Nat) (h : s.length ≤ i) :
    index s i = .error (.indexOutOfRange i s.length) := by
  unfold index
  rw [List.getElem?_eq_none h]

theorem convertStep_in_range (embeddingBytes : List Byte) (j : Nat) (embedding : List FP)
    (hb : 4 * j + 3 < embeddingBytes.length) (he : j < embedding.length) :
    convertStep embeddingBytes (4 * j) embedding =
      .ok (embedding.set j (Float32frombits (littleEndian embeddingBytes j))) := by
  unfold convertStep
  rw [index_in_range _ _ (by omega), index_in_range _ _ (by omega : 4 * j + 1 < _),
    index_in_range _ _ (by omega : 4 * j + 2 < _), index_in_range _ _ hb]
  have hdiv : 4 * j / 4 = j := by omega
  simp only [bind, Except.bind, assign, hdiv, he, if_true]
  rw [bits_little_endian _ _ _ _ (Fin.is_lt _) (Fin.is_lt _) (Fin.is_lt _) (Fin.is_lt _)]
  rfl

theorem convertStep_out_of_range (embeddingBytes : List Byte) (i : Nat) (embedding : List FP)
    (hlo : i < embeddingBytes.length) (hhi : embeddingBytes.length < i + 4) :
    convertStep embeddingBytes i embedding =
      .error (.indexOutOfRange embeddingBytes.length embeddingBytes.length) := by
  unfold convertStep
  rw [index_in_range _ _ hlo]
  simp only [bind, Except.bind]
  by_cases h1 : i + 1 < embeddingBytes.length
  · rw [index_in_range _ _ h1]
    simp only []
    by_cases h2 : i + 2 < embeddingBytes.length
    · rw [index_in_range _ _ h2]
      simp only []
      have h3 : embeddingBytes.length = i + 3 := by omega
      rw [index_out_of_range _ (i + 3) (by omega), h3]
    · have h3 : embeddingBytes.length = i + 2 := by omega
      rw [index_out_of_range _ (i + 2) (by omega), h3]
  · have h3 : embeddingBytes.length = i + 1 := by omega
    rw [index_out_of_range _ (i + 1) (by omega), h3]

theorem convertLoop_multiple (embeddingBytes : List Byte) (n : Nat)
    (hlen : embeddingBytes.length = 4 * n) :
    ∀ (fuel j : Nat) (embedding : List FP), j ≤ n → embedding.length = n → n - j < fuel →
      ∃ result, convertLoop embeddingBytes fuel (4 * j) embedding = some (.ok result) ∧
        result.length = n ∧
        ∀ k, k < n → result[k]? =
          if j ≤ k then some (Float32frombits (littleEndian embeddingBytes k))
          else embedding[k]? := by
  intro fuel
  induction fuel with
  | zero => intro j embedding _ _ h; omega
  | succ fuel ih =>
    intro j embedding hj he hfuel
    by_cases hlt : j < n
    · have hi : 4 * j < embeddingBytes.length := by omega
      simp only [convertLoop, hi, if_true]
      rw [convertStep_in_range embeddingBytes j embedding (by omega) (by omega)]
      simp only []
      obtain ⟨result, hres, hl, hk⟩ :=
        ih (j + 1) (embedding.set j (Float32frombits (littleEndian embeddingBytes j)))
          (by omega) (by simpa using he) (by omega)
      refine ⟨result, ?_, hl, ?_⟩
      · rw [show 4 * j + 4 = 4 * (j + 1) by omega]; exact hres
      · intro k hkn
        rw [hk k hkn]
        by_cases h1 : j + 1 ≤ k
        · have h2 : j ≤ k := by omega
          simp [h1, h2]
        · by_cases h2 : j = k
          · subst h2
            have hjl : j < embedding.length := by omega
            simp [List.getElem?_set, hjl]
          · have h3 : ¬ j ≤ k := by omega
            simp [h1, h3, List.getElem?_set, h2]
    · have hjn : j = n := by omega
      have hi : ¬ 4 * j < embeddingBytes.length := by omega
      simp only [convertLoop, hi, if_false]
      refine ⟨embedding, rfl, he, ?_⟩
      intro k hkn
      have h3 : ¬ j ≤ k := by omega
      simp [h3]

theorem convertLoop_remainder (embeddingBytes : List Byte) (n : Nat)
    (hlo : 4 * n < embeddingBytes.length) (hhi : embeddingBytes.length < 4 * n + 4) :
    ∀ (fuel j : Nat) (embedding : List FP), j ≤ n → embedding.length = n → n - j < fuel →
      convertLoop embeddingBytes fuel (4 * j) embedding =
        some (.error (.indexOutOfRange embeddingBytes.length embeddingBytes.length)) := by
  intro fuel
  induction fuel with
  | zero => intro j embedding _ _ h; omega
  | succ fuel ih =>
    intro j embedding hj he hfuel
    have hi : 4 * j < embeddingBytes.length := by omega
    simp only [convertLoop, hi, if_true]
    by_cases hlt : j < n
    · rw [convertStep_in_range embeddingBytes j embedding (by omega) (by omega)]
      simp only []
      rw [show 4 * j + 4 = 4 * (j + 1) by omega]
      exact ih (j + 1) _ (by omega) (by simpa using he) (by omega)
    · have hjn : j = n := by omega
      subst hjn
      rw [convertStep_out_of_range embeddingBytes (4 * j) embedding hi hhi]

/-- C13: the byte-to-float32 conversion loop of `GetCachedEmbeddings` stays within
the bounds of the decoded byte slice exactly when the length of the slice is a
multiple of 4.  For such a slice it yields exactly `len/4` components, component
`j` being the `float32` whose bits are the bytes `4j .. 4j+3` in little-endian
order; for every slice whose length is not a multiple of 4 it reads the index
`len`, past the end of the slice, and panics. -/
theorem bytesToEmbedding_in_bounds (embeddingBytes : List Byte) :
    ((∃ embedding, bytesToEmbedding embeddingBytes = some (.ok embedding)) ↔
      embeddingBytes.length % 4 = 0) ∧
    (embeddingBytes.length % 4 = 0 →
      ∃ embedding, bytesToEmbedding embeddingBytes = some (.ok embedding) ∧
        embedding.length = embeddingBytes.length / 4 ∧
        ∀ j, j < embeddingBytes.length / 4 →
          embedding[j]? = some (Float32frombits (littleEndian embeddingBytes j))) ∧
    (embeddingBytes.length % 4 ≠ 0 →
      bytesToEmbedding embeddingBytes =
        some (.error (.indexOutOfRange embeddingBytes.length embeddingBytes.length))) := by
  have hmul : embeddingBytes.length % 4 = 0 →
      ∃ embedding, bytesToEmbedding embeddingBytes = some (.ok embedding) ∧
        embedding.length = embeddingBytes.length / 4 ∧
        ∀ j, j < embeddingBytes.length / 4 →
          embedding[j]? = some (Float32frombits (littleEndian embeddingBytes j)) := by
    intro h
    obtain ⟨result, hres, hl, hk⟩ :=
      convertLoop_multiple embeddingBytes (embeddingBytes.length / 4) (by omega)
        (embeddingBytes.length / 4 + 1) 0 (List.replicate (embeddingBytes.length / 4) FP.zero)
        (by omega) (by simp) (by omega)
    exact ⟨result, hres, hl, fun j hj => by simpa using hk j hj⟩
  have hrem : embeddingBytes.length % 4 ≠ 0 →
      bytesToEmbedding embeddingBytes =
        some (.error (.indexOutOfRange embeddingBytes.length embeddingBytes.length)) := by
    intro h
    exact convertLoop_remainder embeddingBytes (embeddingBytes.length / 4) (by omega) (by omega)
      (embeddingBytes.length / 4 + 1) 0 (List.replicate (embeddingBytes.length / 4) FP.zero)
      (by omega) (by simp) (by omega)
  refine ⟨⟨?_, fun h => ?_⟩, hmul, hrem⟩
  · rintro ⟨embedding, he⟩
    by_contra h
    rw [hrem h] at he
    simp at he
  · obtain ⟨embedding, he, -⟩ := hmul h
    exact ⟨embedding, he⟩

/-- Eight bytes give the two values `1.0` and `-2.5`; six bytes panic at index 6. -/
theorem bytesToEmbedding_in_bounds_witness :
    bytesToEmbedding twoFloats =
      some (.ok [FP.ofInt binary32 1,
        FP.div binary32 (FP.ofInt binary32 (-5)) (FP.ofInt binary32 2)]) ∧
    sixBytes.length % 4 ≠ 0 ∧
    bytesToEmbedding sixBytes = some (.error (.indexOutOfRange 6 6)) :=
  ⟨rfl, by decide, (bytesToEmbedding_in_bounds sixBytes).2.2 (by decide)⟩

/-- A chunk that repeats the query is left out, the other chunk is kept. -/
theorem assembleContext_self_match_guard_witness :
    assembleContext "what is courage" [⟨"T", "L", "what is courage"⟩, ⟨"A", "B", "C"⟩] "" =
      "Title of the website where the following paragraph was obtained from -> A. Link of the website -> B . Paragraph -> C . End of that paragraph.\n Starting new paragraph :  \n" ∧
    assembleContext "what is courage" ([] ++ ⟨"T", "L", "what is courage"⟩ :: [⟨"A", "B", "C"⟩]) "" =
      assembleContext "what is courage" ([] ++ [⟨"A", "B", "C"⟩]) "" :=
  ⟨by decide,
    (assembleContext_self_match_guard "what is courage" []).2.1 [] [⟨"A", "B", "C"⟩]
      ⟨"T", "L", "what is courage"⟩ rfl⟩

/-! ## Theorems: text cleaning -/

theorem Fields.go_replaceNewlines (l : List Char) :
    ∀ cur, Fields.go (replaceNewlines l) cur = Fields.go l cur := by
  induction l with
  | nil => intro cur; rfl
  | cons c cs ih =>
    intro cur
    have hn : unicodeIsSpace '\n' = true := by decide
    have hs : unicodeIsSpace ' ' = true := by decide
    by_cases hc : c = '\n'
    · subst hc
      simp only [replaceNewlines, List.map_cons, if_true, Fields.go, hn, hs] at ih ⊢
      simp only [ih]
    · simp only [replaceNewlines, List.map_cons, hc, if_false, Fields.go] at ih ⊢
      simp only [ih]

theorem Fields.go_dropWhile (l : List Char) :
    Fields.go (l.dropWhile unicodeIsSpace) [] = Fields.go l [] := by
  induction l with
  | nil => rfl
  | cons c cs ih =>
    by_cases hc : unicodeIsSpace c = true
    · simp [List.dropWhile, hc, Fields.go, ih]
    · simp [List.dropWhile, hc]

theorem Fields.go_spaces (ws : List Char) (hws : ∀ c ∈ ws, unicodeIsSpace c = true) :
    ∀ cur, Fields.go ws cur = Fields.go [] cur := by
  induction ws with
  | nil => intro cur; rfl
  | cons w ws ih =>
    intro cur
    have hw : unicodeIsSpace w = true := hws w (List.mem_cons_self _ _)
    have ih2 := ih (fun c hc => hws c (List.mem_cons_of_mem _ hc)) []
    by_cases hcur : cur.isEmpty = true
    · simp [Fields.go, hw, hcur, ih2]
    · simp [Fields.go, hw, hcur, ih2]

theorem Fields.go_append_spaces (l ws : List Char)
    (hws : ∀ c ∈ ws, unicodeIsSpace c = true) :
    ∀ cur, Fields.go (l ++ ws) cur = Fields.go l cur := by
  induction l with
  | nil => intro cur; simpa using Fields.go_spaces ws hws cur
  | cons c cs ih =>
    intro cur
    simp only [List.cons_append, Fields.go, List.append_eq, ih]

theorem rtrim_append (l : List Char) :
    (l.reverse.dropWhile unicodeIsSpace).reverse ++
      (l.reverse.takeWhile unicodeIsSpace).reverse = l := by
  rw [← List.reverse_append, List.takeWhile_append_dropWhile, List.reverse_reverse]

theorem Fields_TrimSpace (l : List Char) : Fields (TrimSpace l) = Fields l := by
  unfold Fields TrimSpace
  have h1 := Fields.go_append_spaces
    ((l.dropWhile unicodeIsSpace).reverse.dropWhile unicodeIsSpace).reverse
    ((l.dropWhile unicodeIsSpace).reverse.takeWhile unicodeIsSpace).reverse
    (fun c hc => List.mem_takeWhile_imp (List.mem_reverse.mp hc)) []
  rw [rtrim_append] at h1
  rw [← h1, Fields.go_dropWhile]

theorem cleanText_eq (text : String) :
    cleanText text = String.mk (joinSpace (Fields text.toList)) := by
  unfold cleanText
  have h : Fields (replaceNewlines (TrimSpace text.toList)) = Fields text.toList := by
    rw [← Fields_TrimSpace text.toList]
    exact Fields.go_replaceNewlines _ []
  rw [h]

theorem Fields.go_isField (l : List Char) :
    ∀ cur, (∀ c ∈ cur, unicodeIsSpace c = false) → ∀ f ∈ Fields.go l cur, IsField f := by
  induction l with
  | nil =>
    intro cur hcur f hf
    by_cases he : cur.isEmpty = true
    · simp [Fields.go, he] at hf
    · simp only [Fields.go, he, Bool.false_eq_true, if_false, List.mem_singleton] at hf
      subst hf
      refine ⟨?_, fun c hc => hcur c (List.mem_reverse.mp hc)⟩
      intro h
      apply he
      simpa using h
  | cons c cs ih =>
    intro cur hcur f hf
    by_cases hc : unicodeIsSpace c = true
    · by_cases he : cur.isEmpty = true
      · simp only [Fields.go, hc, he, if_true] at hf
        exact ih [] (by simp) f hf
      · simp only [Fields.go, hc, he, if_true, Bool.false_eq_true, if_false,
          List.mem_cons] at hf
        rcases hf with hf | hf
        · subst hf
          refine ⟨?_, fun c hc => hcur c (List.mem_reverse.mp hc)⟩
          intro h
          apply he
          simpa using h
        · exact ih [] (by simp) f hf
    · simp only [Fields.go, hc, Bool.false_eq_true, if_false] at hf
      refine ih (c :: cur) ?_ f hf
      intro d hd
      rcases List.mem_cons.mp hd with h | h
      · subst h; simpa using hc
      · exact hcur d h

theorem Fields_isField (l : List Char) : ∀ f ∈ Fields l, IsField f :=
  Fields.go_isField l [] (by simp)

theorem Fields.go_append_field (f rest : List Char)
    (hf : ∀ c ∈ f, unicodeIsSpace c = false) :
    ∀ cur, Fields.go (f ++ rest) cur = Fields.go rest (f.reverse ++ cur) := by
  induction f with
  | nil => intro cur; rfl
  | cons c cs ih =>
    intro cur
    have hc : unicodeIsSpace c = false := hf c (List.mem_cons_self _ _)
    simp only [List.cons_append, Fields.go, hc, Bool.false_eq_true, if_false, List.append_eq]
    rw [ih (fun d hd => hf d (List.mem_cons_of_mem _ hd))]
    simp

theorem Fields_joinSpace (fs : List (List Char)) (hfs : ∀ f ∈ fs, IsField f) :
    Fields (joinSpace fs) = fs := by
  unfold Fields
  induction fs with
  | nil => rfl
  | cons x rest ih =>
    have hx : IsField x := hfs x (List.mem_cons_self _ _)
    have hne : x.reverse.isEmpty = false := by
      have := hx.1
      cases x with
      | nil => exact absurd rfl this
      | cons a as => simp
    cases rest with
    | nil =>
      have h := Fields.go_append_field x [] hx.2 []
      simp only [List.append_nil] at h
      simp only [joinSpace, h, Fields.go, hne, Bool.false_eq_true, if_false,
        List.reverse_reverse]
    | cons y rest =>
      have hs : unicodeIsSpace ' ' = true := by decide
      have ih2 := ih (fun f hf => hfs f (List.mem_cons_of_mem _ hf))
      simp only [joinSpace]
      rw [Fields.go_append_field x _ hx.2 []]
      simp only [List.append_nil, Fields.go, hs, if_true, hne, Bool.false_eq_true, if_false,
        List.reverse_reverse]
      rw [ih2]

theorem joinSpace_cons (x : List Char) (rest : List (List Char)) :
    ∃ t, joinSpace (x :: rest) = x ++ t := by
  cases rest with
  | nil => exact ⟨[], by simp [joinSpace]⟩
  | cons y rest => exact ⟨' ' :: joinSpace (y :: rest), rfl⟩

theorem joinSpace_head (fs : List (List Char)) (hfs : ∀ f ∈ fs, IsField f) :
    ∀ c ∈ (joinSpace fs).head?, unicodeIsSpace c = false := by
  cases fs with
  | nil => intro c hc; simp [joinSpace] at hc
  | cons x rest =>
    intro c hc
    have hx : IsField x := hfs x (List.mem_cons_self _ _)
    obtain ⟨t, ht⟩ := joinSpace_cons x rest
    rw [ht] at hc
    cases x with
    | nil => exact absurd rfl hx.1
    | cons a as =>
      simp only [List.cons_append, List.head?_cons, Option.mem_def, Option.some.injEq] at hc
      subst hc
      exact hx.2 a (List.mem_cons_self _ _)

theorem joinSpace_ne_nil (x : List Char) (rest : List (List Char)) (hx : IsField x) :
    joinSpace (x :: rest) ≠ [] := by
  obtain ⟨t, ht⟩ := joinSpace_cons x rest
  rw [ht]
  intro h
  exact hx.1 (List.append_eq_nil.mp h).1

theorem joinSpace_getLast (fs : List (List Char)) (hfs : ∀ f ∈ fs, IsField f) :
    ∀ c ∈ (joinSpace fs).getLast?, unicodeIsSpace c = false := by
  induction fs with
  | nil => intro c hc; simp [joinSpace] at hc
  | cons x rest ih =>
    have hx : IsField x := hfs x (List.mem_cons_self _ _)
    cases rest with
    | nil =>
      intro c hc
      simp only [joinSpace] at hc
      exact hx.2 c (List.mem_of_getLast?_eq_some hc)
    | cons y rest =>
      intro c hc
      have hy : IsField y := hfs y (by simp)
      have hne := joinSpace_ne_nil y rest hy
      simp only [joinSpace] at hc
      rw [List.getLast?_append_of_ne_nil _ (by simp)] at hc
      obtain ⟨j0, jt, hJ⟩ := List.exists_cons_of_ne_nil hne
      have ih2 := ih (fun f hf => hfs f (List.mem_cons_of_mem _ hf)) c
      rw [hJ] at hc ih2
      rw [List.getLast?_cons_cons] at hc
      exact ih2 hc

theorem mem_joinSpace (fs : List (List Char)) (c : Char) (hc : c ∈ joinSpace fs) :
    c = ' ' ∨ ∃ f ∈ fs, c ∈ f := by
  induction fs with
  | nil => simp [joinSpace] at hc
  | cons x rest ih =>
    cases rest with
    | nil => exact Or.inr ⟨x, by simp, by simpa [joinSpace] using hc⟩
    | cons y rest =>
      simp only [joinSpace, List.mem_append, List.mem_cons] at hc
      rcases hc with h | h | h
      · exact Or.inr ⟨x, by simp, h⟩
      · exact Or.inl h
      · rcases ih h with h1 | ⟨f, hf, hcf⟩
        · exact Or.inl h1
        · exact Or.inr ⟨f, List.mem_cons_of_mem _ hf, hcf⟩

theorem noAdjacentSpaces_of_field (x : List Char) (hx : ∀ c ∈ x, unicodeIsSpace c = false) :
    NoAdjacentSpaces x := by
  unfold NoAdjacentSpaces
  induction x with
  | nil => exact List.chain'_nil
  | cons a as ih =>
    rw [List.chain'_cons']
    refine ⟨fun b _ h => ?_, ih (fun c hc => hx c (List.mem_cons_of_mem _ hc))⟩
    have := hx a (List.mem_cons_self _ _)
    rw [this] at h
    exact Bool.false_ne_true h.1

theorem joinSpace_noAdjacentSpaces (fs : List (List Char)) (hfs : ∀ f ∈ fs, IsField f) :
    NoAdjacentSpaces (joinSpace fs) := by
  induction fs with
  | nil => exact List.chain'_nil
  | cons x rest ih =>
    have hx : IsField x := hfs x (List.mem_cons_self _ _)
    cases rest with
    | nil => simpa [joinSpace] using noAdjacentSpaces_of_field x hx.2
    | cons y rest =>
      have hrest : ∀ f ∈ y :: rest, IsField f := fun f hf => hfs f (List.mem_cons_of_mem _ hf)
      have ih2 := ih hrest
      unfold NoAdjacentSpaces at ih2 ⊢
      simp only [joinSpace]
      rw [List.chain'_append, List.chain'_cons']
      refine ⟨noAdjacentSpaces_of_field x hx.2, ⟨?_, ih2⟩, ?_⟩
      · intro b hb h
        rw [joinSpace_head (y :: rest) hrest b hb] at h
        exact Bool.false_ne_true h.2
      · intro a ha b _ h
        rw [hx.2 a (List.mem_of_getLast?_eq_some ha)] at h
        exact Bool.false_ne_true h.1

theorem Fields.go_eq_nil (l : List Char) :
    ∀ cur, Fields.go l cur = [] ↔ cur = [] ∧ ∀ c ∈ l, unicodeIsSpace c = true := by
  induction l with
  | nil =>
    intro cur
    cases cur <;> simp [Fields.go]
  | cons c cs ih =>
    intro cur
    by_cases hc : unicodeIsSpace c = true
    · cases cur with
      | nil => simp [Fields.go, hc, ih]
      | cons a as => simp [Fields.go, hc]
    · simp [Fields.go, hc, ih]

theorem joinSpace_Fields_eq_nil (l : List Char) :
    joinSpace (Fields l) = [] ↔ ∀ c ∈ l, unicodeIsSpace c = true := by
  have h := Fields.go_eq_nil l []
  simp only [true_and] at h
  rw [← h]
  show joinSpace (Fields l) = [] ↔ Fields l = []
  constructor
  · intro hj
    cases hf : Fields l with
    | nil => rfl
    | cons x rest =>
      rw [hf] at hj
      exact absurd hj (joinSpace_ne_nil x rest (Fields_isField l x (by rw [hf]; simp)))
  · intro hf
    rw [hf]
    rfl

theorem Fields.go_eq_splitOnP (l : List Char) :
    ∀ cur, Fields.go l cur =
      (((l.splitOnP unicodeIsSpace).modifyHead (fun h => cur.reverse ++ h)).filter
        (fun f => !f.isEmpty)) := by
  induction l with
  | nil =>
    intro cur
    cases cur with
    | nil => simp [Fields.go, List.splitOnP_nil, List.modifyHead]
    | cons a as => simp [Fields.go, List.splitOnP_nil, List.modifyHead, List.filter_cons]
  | cons c cs ih =>
    intro cur
    rw [List.splitOnP_cons]
    by_cases hc : unicodeIsSpace c = true
    · have ih2 := ih []
      simp only [List.reverse_nil, List.nil_append] at ih2
      have hid : (List.splitOnP unicodeIsSpace cs).modifyHead (fun h => h) =
          List.splitOnP unicodeIsSpace cs := by
        cases List.splitOnP unicodeIsSpace cs <;> rfl
      rw [hid] at ih2
      cases cur with
      | nil => simp [Fields.go, hc, List.modifyHead, ih2, List.filter]
      | cons a as => simp [Fields.go, hc, List.modifyHead, ih2, List.filter]
    · simp only [Fields.go, hc, Bool.false_eq_true, if_false, ih, List.modifyHead_modifyHead]
      congr 2
      funext h
      simp

/-- C11: `cleanText` is a total function that returns the white-space separated
fields of its input (the non-empty pieces between white-space characters) joined
by single spaces.  Its output has no leading or trailing white space, contains no
newline and no two adjacent white-space characters, is empty exactly when the
input is empty or all white space, and cleaning it again changes nothing. -/
theorem cleanText_normalises (text : String) :
    cleanText text = String.mk (joinSpace (Fields text.toList)) ∧
    Fields text.toList =
      (text.toList.splitOnP unicodeIsSpace).filter (fun f => !f.isEmpty) ∧
    (∀ c ∈ (cleanText text).toList.head?, unicodeIsSpace c = false) ∧
    (∀ c ∈ (cleanText text).toList.getLast?, unicodeIsSpace c = false) ∧
    '\n' ∉ (cleanText text).toList ∧
    (cleanText text).toList.Chain'
      (fun a b => ¬ (unicodeIsSpace a = true ∧ unicodeIsSpace b = true)) ∧
    (cleanText text = "" ↔ ∀ c ∈ text.toList, unicodeIsSpace c = true) ∧
    cleanText (cleanText text) = cleanText text := by
  have hfields := Fields_isField text.toList
  have hdata : (cleanText text).toList = joinSpace (Fields text.toList) := by
    rw [cleanText_eq]
    rfl
  refine ⟨cleanText_eq text, ?_, ?_, ?_, ?_, ?_, ?_, ?_⟩
  · have h := Fields.go_eq_splitOnP text.toList []
    simp only [List.reverse_nil, List.nil_append] at h
    have hid : (List.splitOnP unicodeIsSpace text.toList).modifyHead (fun h => h) =
        List.splitOnP unicodeIsSpace text.toList := by
      cases List.splitOnP unicodeIsSpace text.toList <;> rfl
    rw [hid] at h
    exact h
  · rw [hdata]; exact joinSpace_head _ hfields
  · rw [hdata]; exact joinSpace_getLast _ hfields
  · rw [hdata]
    intro hmem
    rcases mem_joinSpace _ _ hmem with h | ⟨f, hf, hcf⟩
    · exact absurd h (by decide)
    · have := (hfields f hf).2 _ hcf
      exact absurd this (by decide)
  · rw [hdata]; exact joinSpace_noAdjacentSpaces _ hfields
  · rw [← joinSpace_Fields_eq_nil, cleanText_eq]
    show String.mk _ = String.mk [] ↔ _
    constructor
    · intro h; exact congrArg String.data h
    · intro h; rw [h]
  · rw [cleanText_eq (cleanText text), hdata, Fields_joinSpace _ hfields, ← cleanText_eq]

/-- Leading, trailing and repeated white space and newlines are collapsed. -/
theorem cleanText_example : cleanText "  a \n\n b\tc  " = "a b c" ∧ cleanText " \n\t " = "" := by
  refine ⟨by decide, by decide⟩

end Extract
